import Mathlib

/-!
Verification development for the Aintivirus mixer API.

The development shallowly embeds the TypeScript sources: pure functions become
Lean functions over `Nat` / `List Nat` / `String`, stateful controller code
becomes explicit state passing over list-modelled stores, and fallible code
returns `Option` / `Except`.  The Poseidon two-to-one hash is an external
capability of the code (provided by the `poseidon-lite` package), so every
Merkle/commitment definition is parametrised by the hash `H : Nat → Nat → Nat`;
theorems quantify over `H` and concrete evaluations instantiate it with the
injective-mod-P pairing `pairHash` below.
-/

set_option maxHeartbeats 1000000

namespace Mixer

/-- The BN254 scalar-field modulus `FIELD_SIZE` from
`MerkleTreeReConstructor/index.ts`. -/
def P : Nat := 21888242871839275222246405745257275088548364400416034343698204186575808495617

/-- The `ZERO_VALUE` constant (hash-domain value of an empty leaf) from
`MerkleTreeReConstructor/index.ts`. -/
def ZERO_VALUE : Nat := 9843416945950214527845121167110536396734923501368431511777016063417998984121

/-- A concrete stand-in for the Poseidon two-to-one hash, used to evaluate the
parametric definitions on concrete inputs: the canonical pairing function
reduced into the field.  Like Poseidon it is deterministic and maps into
`[0, P)`; unlike Poseidon it is cheaply computable by the kernel. -/
def pairHash (a b : Nat) : Nat := Nat.pair (a % P) (b % P) % P

/-- `getZeroHashAt` of `MerkleTreeReConstructor/index.ts`: the hash of an
all-zero subtree of height `level`, `ZERO_VALUE` at the leaves and
`H z z` one level up (the source computes the same value by iterating
`current = poseidon2([current, current])` `level` times from `ZERO_VALUE`). -/
def zeroHashAt (H : Nat → Nat → Nat) : Nat → Nat
  | 0 => ZERO_VALUE
  | l + 1 => H (zeroHashAt H l) (zeroHashAt H l)

/-- The inner `for (let i = 0; i < this.levels; i++)` loop of `getMerkleRoot`
(`MerkleTreeReConstructor/index.ts`): propagate a freshly inserted leaf up the
filled-subtree array.  `zs` carries the per-level zero hashes (the source calls
`getZeroHashAt(i)`), `subs` the filled-subtree array; an even index stores the
current hash as the new filled subtree and pairs it with the zero hash, an odd
index pairs the previously filled subtree with the current hash.  Returns the
propagated hash together with the updated subtree array. -/
def insertUp (H : Nat → Nat → Nat) : List Nat → List Nat → Nat → Nat → Nat × List Nat
  | z :: zs, s :: subs, idx, cur =>
    if idx % 2 = 0 then
      let t := insertUp H zs subs (idx / 2) (H cur z)
      (t.1, cur :: t.2)
    else
      let t := insertUp H zs subs (idx / 2) (H s cur)
      (t.1, s :: t.2)
  | _, _, _, cur => (cur, [])

/-- The outer `for (const leaf of leaves)` loop of `getMerkleRoot`: insert each
leaf with `currentIndex = leaves.indexOf(leaf)` — faithfully including the
source's use of `indexOf`, which returns the index of the *first* occurrence
of the leaf value.  The state is (last propagated root if any, subtree array). -/
def rootFold (H : Nat → Nat → Nat) (zs all : List Nat) :
    List Nat → Option Nat × List Nat → Option Nat × List Nat
  | [], st => st
  | leaf :: rest, st =>
    let t := insertUp H zs st.2 (all.indexOf leaf) leaf
    rootFold H zs all rest (some t.1, t.2)

/-- `getMerkleRoot` of `MerkleTreeReConstructor/index.ts`: initialise the
subtree array with the zero hashes, insert every fetched leaf, and return the
final `currentHash`, falling back to `subtrees[levels - 1]` when no leaf was
ever inserted (`return currentHash || subtrees[this.levels - 1]`). -/
def getMerkleRoot (H : Nat → Nat → Nat) (levels : Nat) (leaves : List Nat) : Nat :=
  let zs := (List.range levels).map (zeroHashAt H)
  let st := rootFold H zs leaves leaves (none, zs)
  match st.1 with
  | some h => h
  | none => st.2.getD (levels - 1) 0

/-- One parent-level computation of `getMerklePath`
(`MerkleTreeReConstructor/index.ts`): hash adjacent pairs, hashing an unpaired
last node with the zero hash `z` of the current level. -/
def hashLevel (H : Nat → Nat → Nat) (z : Nat) : List Nat → List Nat
  | [] => []
  | [a] => [H a z]
  | a :: b :: rest => H a b :: hashLevel H z rest

/-- Iterate `hashLevel` `cnt` times starting from level `lvl`: the successive
`currentLevel` lists built by `getMerklePath`'s loop. -/
def levIter (H : Nat → Nat → Nat) : Nat → Nat → List Nat → List Nat
  | 0, _, cur => cur
  | cnt + 1, lvl, cur => levIter H cnt (lvl + 1) (hashLevel H (zeroHashAt H lvl) cur)

/-- The full bottom-up rebuild root implicit in `getMerklePath`: fold the leaf
level up through `levels` parent computations and take the head. -/
def rebuildRoot (H : Nat → Nat → Nat) (levels : Nat) (leaves : List Nat) : Nat :=
  (levIter H levels 0 leaves).headD 0

/-- The per-level body of `getMerklePath`'s loop: record `index % 2` as the
side bit and the sibling at `index ^ 1` (the zero hash when that index is past
the end of the current level), then move to the parent level. -/
def pathAux (H : Nat → Nat → Nat) : Nat → Nat → List Nat → Nat → List Nat × List Nat
  | 0, _, _, _ => ([], [])
  | cnt + 1, lvl, cur, idx =>
    let z := zeroHashAt H lvl
    let sib := if idx ^^^ 1 < cur.length then cur.getD (idx ^^^ 1) 0 else z
    let rest := pathAux H cnt (lvl + 1) (hashLevel H z cur) (idx / 2)
    (sib :: rest.1, (idx % 2) :: rest.2)

/-- `getMerklePath` of `MerkleTreeReConstructor/index.ts` (the level-by-level
variant actually used by `getLastRootAndMerklePath`): fails when `leafIndex`
is not the index of an inserted leaf, otherwise returns (pathElements,
pathIndices). -/
def getMerklePath (H : Nat → Nat → Nat) (levels : Nat) (leaves : List Nat)
    (leafIndex : Nat) : Option (List Nat × List Nat) :=
  if leafIndex < leaves.length then some (pathAux H levels 0 leaves leafIndex) else none

/-- The hash chain of `MerkleTreeVerifier.verifyMerkleProof` (part_000): from
the leaf, combine with each path element on the side selected by the path
index, failing on a side bit other than 0 or 1. -/
def chainOpt (H : Nat → Nat → Nat) : Nat → List (Nat × Nat) → Option Nat
  | cur, [] => some cur
  | cur, (el, b) :: rest =>
    if b = 0 then chainOpt H (H cur el) rest
    else if b = 1 then chainOpt H (H el cur) rest
    else none

/-- `MerkleTreeVerifier.verifyMerkleProof` (part_000), over field values:
recompute the root from the leaf along the path and compare with `root`.
(The source compares number-valued strings; the embedding works with the
numeric values themselves.) -/
def verifyMerkleProof (H : Nat → Nat → Nat) (leaf root : Nat)
    (pathElements pathIndices : List Nat) : Option Bool :=
  (chainOpt H leaf (pathElements.zip pathIndices)).map (fun h => h == root)

/-- Specification node function: the value of the interior node at `(level,
index)` of the depth-unbounded tree whose first `m` positions hold the leaves
of `xs` and whose remaining positions hold `ZERO_VALUE`. -/
def nodeP (H : Nat → Nat → Nat) (xs : List Nat) (m : Nat) : Nat → Nat → Nat
  | 0, j => if j < m then xs.getD j 0 else ZERO_VALUE
  | l + 1, j => H (nodeP H xs m l (2 * j)) (nodeP H xs m l (2 * j + 1))

/-- A node whose whole subtree lies beyond the populated prefix is a zero
hash. -/
theorem nodeP_zero (H : Nat → Nat → Nat) (xs : List Nat) :
    ∀ (l j m : Nat), m ≤ j * 2 ^ l → nodeP H xs m l j = zeroHashAt H l := by
  intro l
  induction l with
  | zero =>
    intro j m h
    simp only [pow_zero, mul_one] at h
    simp [nodeP, zeroHashAt, Nat.not_lt.2 h]
  | succ l ih =>
    intro j m h
    have h1 : m ≤ 2 * j * 2 ^ l := by
      calc m ≤ j * 2 ^ (l + 1) := h
      _ = 2 * j * 2 ^ l := by ring
    have h2 : m ≤ (2 * j + 1) * 2 ^ l := by
      calc m ≤ 2 * j * 2 ^ l := h1
      _ ≤ (2 * j + 1) * 2 ^ l := Nat.mul_le_mul_right _ (by omega)
    simp [nodeP, zeroHashAt, ih _ _ h1, ih _ _ h2]

/-- A node whose whole subtree lies inside the populated prefix does not
depend on how far the prefix extends. -/
theorem nodeP_mono (H : Nat → Nat → Nat) (xs : List Nat) :
    ∀ (l j m m' : Nat), (j + 1) * 2 ^ l ≤ m → m ≤ m' →
      nodeP H xs m l j = nodeP H xs m' l j := by
  intro l
  induction l with
  | zero =>
    intro j m m' h hmm
    simp only [pow_zero, mul_one] at h
    simp [nodeP, show j < m by omega, show j < m' by omega]
  | succ l ih =>
    intro j m m' h hmm
    have h1 : (2 * j + 1) * 2 ^ l ≤ m := by
      calc (2 * j + 1) * 2 ^ l ≤ (2 * j + 2) * 2 ^ l := Nat.mul_le_mul_right _ (by omega)
      _ = (j + 1) * 2 ^ (l + 1) := by ring
      _ ≤ m := h
    have h2 : (2 * j + 1 + 1) * 2 ^ l ≤ m := by
      calc (2 * j + 1 + 1) * 2 ^ l = (j + 1) * 2 ^ (l + 1) := by ring
      _ ≤ m := h
    simp [nodeP, ih _ _ _ h1 hmm, ih _ _ _ h2 hmm]

/-- Each parent level holds half as many nodes, rounding up. -/
theorem hashLevel_length (H : Nat → Nat → Nat) (z : Nat) :
    ∀ xs : List Nat, (hashLevel H z xs).length = (xs.length + 1) / 2
  | [] => by simp [hashLevel]
  | [_] => by simp [hashLevel]
  | _ :: _ :: rest => by
    simp [hashLevel, hashLevel_length H z rest]
    omega

/-- Reading a parent level with the next zero hash as default is hashing the
two children read with the current zero hash as default — valid at every
index, in or out of range. -/
theorem hashLevel_getD (H : Nat → Nat → Nat) (z : Nat) :
    ∀ (j : Nat) (xs : List Nat),
      (hashLevel H z xs).getD j (H z z) = H (xs.getD (2 * j) z) (xs.getD (2 * j + 1) z) := by
  intro j
  induction j with
  | zero =>
    intro xs
    match xs with
    | [] => simp [hashLevel]
    | [a] => simp [hashLevel]
    | a :: b :: rest => simp [hashLevel]
  | succ j ih =>
    intro xs
    match xs with
    | [] => simp [hashLevel]
    | [a] =>
      rw [show 2 * (j + 1) = 2 * j + 1 + 1 by ring]
      simp [hashLevel]
    | a :: b :: rest =>
      rw [show 2 * (j + 1) = 2 * j + 1 + 1 by ring]
      simpa [hashLevel] using ih rest

/-- Iterating `hashLevel` computes the spec nodes, when the start level does:
the defaulted read of the level-`lvl + cnt` list is the spec node at every
index. -/
theorem levIter_getD (H : Nat → Nat → Nat) (N : Nat → Nat → Nat)
    (hrec : ∀ l j, N (l + 1) j = H (N l (2 * j)) (N l (2 * j + 1))) :
    ∀ (cnt lvl : Nat) (L : List Nat),
      (∀ j, L.getD j (zeroHashAt H lvl) = N lvl j) →
      ∀ j, (levIter H cnt lvl L).getD j (zeroHashAt H (lvl + cnt)) = N (lvl + cnt) j := by
  intro cnt
  induction cnt with
  | zero => intro lvl L hL j; simpa using hL j
  | succ cnt ih =>
    intro lvl L hL j
    have hL' : ∀ j, (hashLevel H (zeroHashAt H lvl) L).getD j (zeroHashAt H (lvl + 1))
        = N (lvl + 1) j := by
      intro j
      rw [show zeroHashAt H (lvl + 1) = H (zeroHashAt H lvl) (zeroHashAt H lvl) from rfl,
        hashLevel_getD, hL, hL, hrec]
    have h := ih (lvl + 1) _ hL' j
    rw [show lvl + (cnt + 1) = lvl + 1 + cnt by omega]
    simpa [levIter] using h

/-- `hashLevel` iteration never empties a nonempty level list. -/
theorem levIter_length_pos (H : Nat → Nat → Nat) :
    ∀ (cnt lvl : Nat) (L : List Nat), 0 < L.length → 0 < (levIter H cnt lvl L).length := by
  intro cnt
  induction cnt with
  | zero => intro lvl L h; simpa [levIter] using h
  | succ cnt ih =>
    intro lvl L h
    have : 0 < (hashLevel H (zeroHashAt H lvl) L).length := by
      rw [hashLevel_length]; omega
    simpa [levIter] using ih (lvl + 1) _ this

/-- The full bottom-up rebuild of a nonempty leaf list computes the spec node
at the top position. -/
theorem rebuildRoot_eq_nodeP (H : Nat → Nat → Nat) (levels : Nat) (xs : List Nat)
    (hne : xs ≠ []) : rebuildRoot H levels xs = nodeP H xs xs.length levels 0 := by
  have hpos : 0 < xs.length := List.length_pos.2 hne
  have base : ∀ j, xs.getD j (zeroHashAt H 0) = nodeP H xs xs.length 0 j := by
    intro j
    by_cases hj : j < xs.length
    · rw [List.getD_eq_getElem _ _ hj, nodeP, if_pos hj, List.getD_eq_getElem _ _ hj]
    · rw [List.getD_eq_default _ _ (by omega), nodeP, if_neg hj]
      rfl
  have h := levIter_getD H (nodeP H xs xs.length) (fun l j => rfl) levels 0 xs base 0
  have hlen : 0 < (levIter H levels 0 xs).length := levIter_length_pos H levels 0 xs hpos
  cases hL : levIter H levels 0 xs with
  | nil => rw [hL] at hlen; simp at hlen
  | cons a t =>
    rw [hL] at h
    simpa [rebuildRoot, hL] using h

/-- `k` is below the right sibling of the node on its own insertion path. -/
theorem lt_succ_div_mul (k d : Nat) (hd : 0 < d) : k < (k / d + 1) * d :=
  (Nat.div_lt_iff_lt_mul hd).1 (Nat.lt_succ_self _)

/-- Clearing the low bit of the previous insertion index at a level where the
current index is odd yields the left sibling's index. -/
theorem div_pred_clear (k d : Nat) (hd : 0 < d) (hodd : k / d % 2 = 1) :
    2 * ((k - 1) / d / 2) = k / d - 1 := by
  have hk : d * (k / d) + k % d = k := Nat.div_add_mod k d
  have hr : k % d < d := Nat.mod_lt _ hd
  generalize hq : k / d = q at hodd hk ⊢
  have hq1 : 1 ≤ q := by omega
  rcases Nat.eq_zero_or_pos (k % d) with h0 | hpos
  · have e2 : d * q = d * (q - 1) + d := by
      conv_lhs => rw [show q = q - 1 + 1 by omega]
      ring
    have e : k - 1 = d * (q - 1) + (d - 1) := by omega
    rw [e, Nat.mul_add_div hd, Nat.div_eq_of_lt (show d - 1 < d by omega)]
    omega
  · have e : k - 1 = d * q + (k % d - 1) := by omega
    rw [e, Nat.mul_add_div hd, Nat.div_eq_of_lt (show k % d - 1 < d by omega)]
    omega

/-- The invariant of the filled-subtree array: after the first `k` leaves are
inserted, the entry at level `L` holds the spec node at the even-rounded index
of the previous insertion path (for `k = 0` this is the level's zero hash,
since `nodeP _ _ 0` is all-zero). -/
def subsInv (H : Nat → Nat → Nat) (xs : List Nat) (k lvl : Nat) (subs : List Nat) : Prop :=
  ∀ i, i < subs.length →
    subs.getD i 0 = nodeP H xs k (lvl + i) (2 * ((k - 1) / 2 ^ (lvl + i) / 2))

/-- Correctness of one `insertUp` pass inserting leaf number `k` (0-based):
starting from a subtree array satisfying the `k`-insertion invariant, the pass
returns the spec node at the top of the processed levels for the `k + 1`-leaf
tree, and an array satisfying the `k + 1`-insertion invariant. -/
theorem insertUp_spec (H : Nat → Nat → Nat) (xs : List Nat) (k : Nat) :
    ∀ (subs zs : List Nat) (lvl : Nat),
      zs.length = subs.length →
      (∀ i, i < subs.length → zs.getD i 0 = zeroHashAt H (lvl + i)) →
      subsInv H xs k lvl subs →
      (insertUp H zs subs (k / 2 ^ lvl) (nodeP H xs (k + 1) lvl (k / 2 ^ lvl))).1
          = nodeP H xs (k + 1) (lvl + subs.length) (k / 2 ^ (lvl + subs.length))
      ∧ (insertUp H zs subs (k / 2 ^ lvl) (nodeP H xs (k + 1) lvl (k / 2 ^ lvl))).2.length
          = subs.length
      ∧ subsInv H xs (k + 1) lvl
          (insertUp H zs subs (k / 2 ^ lvl) (nodeP H xs (k + 1) lvl (k / 2 ^ lvl))).2 := by
  intro subs
  induction subs with
  | nil =>
    intro zs lvl _ _ _
    have he : insertUp H zs [] (k / 2 ^ lvl) (nodeP H xs (k + 1) lvl (k / 2 ^ lvl))
        = (nodeP H xs (k + 1) lvl (k / 2 ^ lvl), []) := by
      cases zs <;> rfl
    rw [he]
    exact ⟨by simp, rfl, fun i hi => by simp at hi⟩
  | cons s subs' ih =>
    intro zs lvl hlen hz hinv
    match zs, hlen with
    | z :: zs', hlen =>
    have hlen' : zs'.length = subs'.length := by simpa using hlen
    have hzhead : z = zeroHashAt H lvl := by simpa using hz 0 (by simp)
    have hz' : ∀ i, i < subs'.length → zs'.getD i 0 = zeroHashAt H (lvl + 1 + i) := by
      intro i hi
      have := hz (i + 1) (by simp only [List.length_cons]; omega)
      rw [show lvl + (i + 1) = lvl + 1 + i by omega] at this
      simpa using this
    have hinv' : subsInv H xs k (lvl + 1) subs' := by
      intro i hi
      have := hinv (i + 1) (by simp only [List.length_cons]; omega)
      rw [show lvl + (i + 1) = lvl + 1 + i by omega] at this
      simpa using this
    have hdpos : 0 < 2 ^ lvl := Nat.pos_pow_of_pos lvl (by omega)
    have hdiv : k / 2 ^ lvl / 2 = k / 2 ^ (lvl + 1) := by
      rw [Nat.div_div_eq_div_mul, pow_succ]
    have hksib : k < (k / 2 ^ lvl + 1) * 2 ^ lvl := lt_succ_div_mul k (2 ^ lvl) hdpos
    have hlvlen : lvl + (s :: subs').length = lvl + 1 + subs'.length := by
      simp only [List.length_cons]; omega
    rcases Nat.even_or_odd (k / 2 ^ lvl) with heven | hodd
    · -- left-child insertion: store the current hash, pair with the zero hash
      have hmod : k / 2 ^ lvl % 2 = 0 := Nat.even_iff.1 heven
      have hdm : 2 * (k / 2 ^ lvl / 2) = k / 2 ^ lvl := by
        have h := Nat.div_add_mod (k / 2 ^ lvl) 2
        rw [hmod, Nat.add_zero] at h
        exact h
      have hcur : H (nodeP H xs (k + 1) lvl (k / 2 ^ lvl)) z
          = nodeP H xs (k + 1) (lvl + 1) (k / 2 ^ (lvl + 1)) := by
        rw [← hdiv, hzhead]
        have hright : nodeP H xs (k + 1) lvl (k / 2 ^ lvl + 1) = zeroHashAt H lvl :=
          nodeP_zero H xs lvl _ _ (by omega)
        rw [nodeP, hdm, hright]
      have heq : insertUp H (z :: zs') (s :: subs') (k / 2 ^ lvl)
            (nodeP H xs (k + 1) lvl (k / 2 ^ lvl))
          = ((insertUp H zs' subs' (k / 2 ^ lvl / 2)
                (H (nodeP H xs (k + 1) lvl (k / 2 ^ lvl)) z)).1,
             nodeP H xs (k + 1) lvl (k / 2 ^ lvl)
               :: (insertUp H zs' subs' (k / 2 ^ lvl / 2)
                (H (nodeP H xs (k + 1) lvl (k / 2 ^ lvl)) z)).2) := by
        rw [insertUp, if_pos hmod]
      have hrec := ih zs' (lvl + 1) hlen' hz' hinv'
      rw [← hcur] at hrec
      rw [← hdiv] at hrec
      rw [heq, hlvlen]
      refine ⟨hrec.1, by simpa using hrec.2.1, ?_⟩
      intro i hi
      match i with
      | 0 =>
        simp only [List.getD_cons_zero, Nat.add_zero]
        rw [show k + 1 - 1 = k from Nat.add_sub_cancel k 1, hdm]
      | i + 1 =>
        simp only [List.length_cons] at hi
        have := hrec.2.2 i (by omega)
        rw [show lvl + 1 + i = lvl + (i + 1) by omega] at this
        simpa using this
    · -- right-child insertion: pair the stored left sibling with the current hash
      have hmod : k / 2 ^ lvl % 2 = 1 := Nat.odd_iff.1 hodd
      have hcond : ¬ k / 2 ^ lvl % 2 = 0 := by rw [hmod]; omega
      have hq1 : 0 < k / 2 ^ lvl :=
        Nat.pos_of_ne_zero (fun h => by rw [h] at hmod; simp at hmod)
      have hdm2 : 2 * (k / 2 ^ lvl / 2) + 1 = k / 2 ^ lvl := by
        have h := Nat.div_add_mod (k / 2 ^ lvl) 2
        rw [hmod] at h
        exact h
      have hqpred : 2 * (k / 2 ^ lvl / 2) = k / 2 ^ lvl - 1 := by
        conv_rhs => rw [← hdm2]
        rw [Nat.add_sub_cancel]
      have hpred1 : k / 2 ^ lvl - 1 + 1 = k / 2 ^ lvl := Nat.succ_pred_eq_of_pos hq1
      have hclear := div_pred_clear k (2 ^ lvl) hdpos hmod
      have hmul : (k / 2 ^ lvl) * 2 ^ lvl ≤ k := Nat.div_mul_le_self k (2 ^ lvl)
      have hshead : s = nodeP H xs (k + 1) lvl (k / 2 ^ lvl - 1) := by
        have h0 := hinv 0 (by simp)
        simp only [List.getD_cons_zero, Nat.add_zero] at h0
        rw [h0, hclear]
        exact nodeP_mono H xs lvl _ k (k + 1) (by rw [hpred1]; exact hmul) (by omega)
      have hcur : H s (nodeP H xs (k + 1) lvl (k / 2 ^ lvl))
          = nodeP H xs (k + 1) (lvl + 1) (k / 2 ^ (lvl + 1)) := by
        rw [← hdiv, hshead]
        rw [nodeP, hqpred, hpred1]
      have heq : insertUp H (z :: zs') (s :: subs') (k / 2 ^ lvl)
            (nodeP H xs (k + 1) lvl (k / 2 ^ lvl))
          = ((insertUp H zs' subs' (k / 2 ^ lvl / 2)
                (H s (nodeP H xs (k + 1) lvl (k / 2 ^ lvl)))).1,
             s :: (insertUp H zs' subs' (k / 2 ^ lvl / 2)
                (H s (nodeP H xs (k + 1) lvl (k / 2 ^ lvl)))).2) := by
        rw [insertUp, if_neg hcond]
      have hrec := ih zs' (lvl + 1) hlen' hz' hinv'
      rw [← hcur] at hrec
      rw [← hdiv] at hrec
      rw [heq, hlvlen]
      refine ⟨hrec.1, by simpa using hrec.2.1, ?_⟩
      intro i hi
      match i with
      | 0 =>
        simp only [List.getD_cons_zero, Nat.add_zero]
        rw [hshead, show k + 1 - 1 = k from Nat.add_sub_cancel k 1, hqpred]
      | i + 1 =>
        simp only [List.length_cons] at hi
        have := hrec.2.2 i (by omega)
        rw [show lvl + 1 + i = lvl + (i + 1) by omega] at this
        simpa using this

/-- Correctness of `getMerkleRoot`'s leaf loop on a duplicate-free leaf list:
starting from insertion count `p` with a matching subtree array, folding the
remaining leaves `xs.drop p` yields the spec node at the top of the processed
levels for the full list. -/
theorem rootFold_spec (H : Nat → Nat → Nat) (xs : List Nat) (hnd : xs.Nodup)
    (zs : List Nat) :
    ∀ (rest : List Nat) (p : Nat) (subs : List Nat) (cur : Option Nat),
      xs.drop p = rest →
      zs.length = subs.length →
      (∀ i, i < subs.length → zs.getD i 0 = zeroHashAt H i) →
      subsInv H xs p 0 subs →
      (rootFold H zs xs rest (cur, subs)).1
        = if rest = [] then cur
          else some (nodeP H xs xs.length subs.length ((xs.length - 1) / 2 ^ subs.length)) := by
  intro rest
  induction rest with
  | nil => intro p subs cur _ _ _ _; simp [rootFold]
  | cons leaf rest' ih =>
    intro p subs cur hdrop hlen hz hinv
    have hp : p < xs.length := by
      by_contra hge
      rw [List.drop_eq_nil_of_le (by omega)] at hdrop
      exact List.cons_ne_nil _ _ hdrop.symm
    have hleaf : xs[p] = leaf := by
      have h1 : (xs.drop p).head? = some leaf := by rw [hdrop]; rfl
      rw [List.head?_drop, List.getElem?_eq_getElem hp] at h1
      exact Option.some.inj h1
    have hdrop' : xs.drop (p + 1) = rest' := by
      have : (xs.drop p).tail = rest' := by rw [hdrop]; rfl
      rwa [List.tail_drop] at this
    have hidx : xs.indexOf leaf = p := by
      rw [← hleaf]
      exact List.indexOf_getElem hnd p hp
    have hp20 : p / 2 ^ 0 = p := by rw [pow_zero, Nat.div_one]
    have hleafnode : leaf = nodeP H xs (p + 1) 0 p := by
      rw [nodeP, if_pos (by omega), List.getD_eq_getElem xs 0 hp, hleaf]
    have hz0 : ∀ i, i < subs.length → zs.getD i 0 = zeroHashAt H (0 + i) := by
      intro i hi; rw [Nat.zero_add]; exact hz i hi
    have hspec := insertUp_spec H xs p subs zs 0 hlen hz0 hinv
    have hfold : rootFold H zs xs (leaf :: rest') (cur, subs)
        = rootFold H zs xs rest'
            (some (insertUp H zs subs (xs.indexOf leaf) leaf).1,
             (insertUp H zs subs (xs.indexOf leaf) leaf).2) := by
      rw [rootFold]
    rw [hfold, hidx]
    have hcall : insertUp H zs subs p leaf
        = insertUp H zs subs (p / 2 ^ 0) (nodeP H xs (p + 1) 0 (p / 2 ^ 0)) := by
      rw [hp20, ← hleafnode]
    rw [hcall]
    have hlen2 := hspec.2.1
    have hres := ih (p + 1) _
      (some (insertUp H zs subs (p / 2 ^ 0) (nodeP H xs (p + 1) 0 (p / 2 ^ 0))).1)
      hdrop' (hlen.trans hlen2.symm) (fun i hi => hz i (by omega)) hspec.2.2
    rw [hres]
    by_cases hr : rest' = []
    · subst hr
      have hn : xs.length = p + 1 := by
        have := List.drop_eq_nil_iff.1 hdrop'
        omega
      rw [if_pos rfl, if_neg (List.cons_ne_nil leaf []), hspec.1, hn, Nat.zero_add,
        Nat.add_sub_cancel]
    · rw [if_neg hr, if_neg (List.cons_ne_nil leaf rest'), hlen2]

/-- `getMerkleRoot` on a duplicate-free leaf list that fits in the tree
computes the spec node at the root position. -/
theorem getMerkleRoot_eq_nodeP (H : Nat → Nat → Nat) (levels : Nat) (xs : List Nat)
    (hnd : xs.Nodup) (hne : xs ≠ []) (hcap : xs.length ≤ 2 ^ levels) :
    getMerkleRoot H levels xs = nodeP H xs xs.length levels 0 := by
  have hzlen : ((List.range levels).map (zeroHashAt H)).length = levels := by simp
  have hz : ∀ i, i < levels →
      ((List.range levels).map (zeroHashAt H)).getD i 0 = zeroHashAt H i := by
    intro i hi
    rw [List.getD_eq_getElem _ _ (by simpa using hi)]
    simp
  have hinv : subsInv H xs 0 0 ((List.range levels).map (zeroHashAt H)) := by
    intro i hi
    rw [hzlen] at hi
    rw [hz i hi, Nat.zero_add]
    exact (nodeP_zero H xs i _ 0 (by omega)).symm
  have hfold := rootFold_spec H xs hnd ((List.range levels).map (zeroHashAt H)) xs 0
    ((List.range levels).map (zeroHashAt H)) none rfl rfl (by rw [hzlen]; exact hz) hinv
  rw [if_neg hne, hzlen] at hfold
  have hpos : 0 < xs.length := List.length_pos.2 hne
  have hdivz : (xs.length - 1) / 2 ^ levels = 0 := Nat.div_eq_of_lt (by omega)
  rw [hdivz] at hfold
  simp only [getMerkleRoot]
  rw [hfold]

/-- Xor with 1 on an even number sets the low bit. -/
theorem xor_one_of_even (i : Nat) (h : i % 2 = 0) : i ^^^ 1 = i + 1 := by
  have e : 2 * (i / 2) = i := by omega
  have hx := Nat.xor_bit false (i / 2) true 0
  simp only [Nat.bit_val, Bool.toNat_false, Bool.toNat_true, Nat.add_zero, Nat.mul_zero,
    Nat.zero_add, Nat.xor_zero, bne] at hx
  rw [← e]
  simpa using hx

/-- Xor with 1 on an odd number clears the low bit. -/
theorem xor_one_of_odd (i : Nat) (h : i % 2 = 1) : i ^^^ 1 = i - 1 := by
  have e : 2 * (i / 2) + 1 = i := by omega
  have hx := Nat.xor_bit true (i / 2) true 0
  simp only [Nat.bit_val, Bool.toNat_false, Bool.toNat_true, Nat.add_zero, Nat.mul_zero,
    Nat.zero_add, Nat.xor_zero, bne] at hx
  rw [← e]
  simpa using hx

/-- Round-trip of one path against the level-by-level rebuild: recomputing the
hash chain from leaf `i` along the recorded siblings lands on the defaulted
read of the top level list at the leaf's ancestor index. -/
theorem pathAux_chain (H : Nat → Nat → Nat) :
    ∀ (cnt lvl : Nat) (L : List Nat) (i : Nat), i < L.length →
      chainOpt H (L.getD i 0)
          ((pathAux H cnt lvl L i).1.zip (pathAux H cnt lvl L i).2)
        = some ((levIter H cnt lvl L).getD (i / 2 ^ cnt) (zeroHashAt H (lvl + cnt))) := by
  intro cnt
  induction cnt with
  | zero =>
    intro lvl L i hi
    have heq : pathAux H 0 lvl L i = ([], []) := rfl
    rw [heq]
    show some (L.getD i 0) = some (L.getD (i / 2 ^ 0) (zeroHashAt H (lvl + 0)))
    rw [pow_zero, Nat.div_one, List.getD_eq_getElem _ _ hi, List.getD_eq_getElem _ _ hi]
  | succ cnt ih =>
    intro lvl L i hi
    have heq : pathAux H (cnt + 1) lvl L i
        = ((if i ^^^ 1 < L.length then L.getD (i ^^^ 1) 0 else zeroHashAt H lvl)
             :: (pathAux H cnt (lvl + 1) (hashLevel H (zeroHashAt H lvl) L) (i / 2)).1,
           (i % 2)
             :: (pathAux H cnt (lvl + 1) (hashLevel H (zeroHashAt H lvl) L) (i / 2)).2) := rfl
    have hlen2 : i / 2 < (hashLevel H (zeroHashAt H lvl) L).length := by
      rw [hashLevel_length]; omega
    have hIH := ih (lvl + 1) (hashLevel H (zeroHashAt H lvl) L) (i / 2) hlen2
    have hdiv : i / 2 / 2 ^ cnt = i / 2 ^ (cnt + 1) := by
      rw [Nat.div_div_eq_div_mul]
      congr 1
      rw [pow_succ]; ring
    have hlv : lvl + 1 + cnt = lvl + (cnt + 1) := by omega
    rw [hdiv, hlv] at hIH
    have hcurd : L.getD i 0 = L.getD i (zeroHashAt H lvl) := by
      rw [List.getD_eq_getElem _ _ hi, List.getD_eq_getElem _ _ hi]
    have hlevd : (hashLevel H (zeroHashAt H lvl) L).getD (i / 2)
          (H (zeroHashAt H lvl) (zeroHashAt H lvl))
        = (hashLevel H (zeroHashAt H lvl) L).getD (i / 2) 0 := by
      rw [List.getD_eq_getElem _ _ hlen2, List.getD_eq_getElem _ _ hlen2]
    rcases Nat.even_or_odd i with he | ho
    · have hm : i % 2 = 0 := Nat.even_iff.1 he
      have hsib : (if i ^^^ 1 < L.length then L.getD (i ^^^ 1) 0 else zeroHashAt H lvl)
          = L.getD (i + 1) (zeroHashAt H lvl) := by
        rw [xor_one_of_even i hm]
        by_cases hr : i + 1 < L.length
        · rw [if_pos hr, List.getD_eq_getElem _ _ hr, List.getD_eq_getElem _ _ hr]
        · rw [if_neg hr, List.getD_eq_default _ _ (by omega)]
      have hnode : H (L.getD i (zeroHashAt H lvl)) (L.getD (i + 1) (zeroHashAt H lvl))
          = (hashLevel H (zeroHashAt H lvl) L).getD (i / 2)
              (H (zeroHashAt H lvl) (zeroHashAt H lvl)) := by
        rw [hashLevel_getD, show 2 * (i / 2) = i by omega, show i + 1 = i + 1 from rfl]
      rw [heq, List.zip_cons_cons, chainOpt, if_pos hm, hcurd, hsib, hnode, hlevd]
      exact hIH
    · have hm : i % 2 = 1 := Nat.odd_iff.1 ho
      have hsib : (if i ^^^ 1 < L.length then L.getD (i ^^^ 1) 0 else zeroHashAt H lvl)
          = L.getD (i - 1) (zeroHashAt H lvl) := by
        have hil : i - 1 < L.length := by omega
        rw [xor_one_of_odd i hm, if_pos hil, List.getD_eq_getElem _ _ hil,
          List.getD_eq_getElem _ _ hil]
      have hnode : H (L.getD (i - 1) (zeroHashAt H lvl)) (L.getD i (zeroHashAt H lvl))
          = (hashLevel H (zeroHashAt H lvl) L).getD (i / 2)
              (H (zeroHashAt H lvl) (zeroHashAt H lvl)) := by
        rw [hashLevel_getD, show 2 * (i / 2) = i - 1 by omega,
          show i - 1 + 1 = i by omega]
      rw [heq, List.zip_cons_cons, chainOpt, if_neg (by omega), if_pos hm, hcurd, hsib,
        hnode, hlevd]
      exact hIH

/-- The defaulted leaf-level read is the spec node at level 0. -/
theorem leaf_getD_nodeP (H : Nat → Nat → Nat) (xs : List Nat) :
    ∀ j, xs.getD j (zeroHashAt H 0) = nodeP H xs xs.length 0 j := by
  intro j
  by_cases hj : j < xs.length
  · rw [List.getD_eq_getElem _ _ hj, nodeP, if_pos hj, List.getD_eq_getElem _ _ hj]
  · rw [List.getD_eq_default _ _ (by omega), nodeP, if_neg hj]
    rfl

/-- C3, as stated, fails on the code: on the duplicate leaf sequence `[1, 1]`
(depth 2, concrete in-field hash `pairHash`) the incremental `getMerkleRoot` —
whose `leaves.indexOf(leaf)` resolves the second occurrence to index 0 —
re-inserts the leaf at index 0 and returns the one-leaf root, while the full
level-by-level rebuild hashes the pair. -/
theorem claim_C3_counterexample :
    ¬ getMerkleRoot pairHash 2 [1, 1] = rebuildRoot pairHash 2 [1, 1] := by decide

/-- C3 (amended: duplicate-free leaf sequences): for every two-to-one hash `H`
and every nonempty duplicate-free sequence of in-field leaves of length at most
`2 ^ levels`, the incremental insertion strategy of `getMerkleRoot` and the
full bottom-up zero-padded rebuild performed level-by-level in `getMerklePath`
produce the same root. -/
theorem claim_C3 (H : Nat → Nat → Nat) (levels : Nat) (leaves : List Nat)
    (hnd : leaves.Nodup) (hne : leaves ≠ []) (hcap : leaves.length ≤ 2 ^ levels)
    (hfield : ∀ x ∈ leaves, x < P) :
    getMerkleRoot H levels leaves = rebuildRoot H levels leaves := by
  rw [getMerkleRoot_eq_nodeP H levels leaves hnd hne hcap,
    rebuildRoot_eq_nodeP H levels leaves hne]

/-- Witness for C3 at depth 2 over the leaves `[1, 2, 3]` with the concrete
hash `pairHash`. -/
theorem claim_C3_witness :
    ([1, 2, 3] : List Nat).Nodup ∧ ([1, 2, 3] : List Nat) ≠ []
      ∧ ([1, 2, 3] : List Nat).length ≤ 2 ^ 2 ∧ (∀ x ∈ ([1, 2, 3] : List Nat), x < P)
      ∧ getMerkleRoot pairHash 2 [1, 2, 3] = rebuildRoot pairHash 2 [1, 2, 3] :=
  ⟨by decide, by decide, by decide, by decide,
    claim_C3 pairHash 2 [1, 2, 3] (by decide) (by decide) (by decide) (by decide)⟩

/-- C9: the empty-leaf case of `getMerkleRoot` returns `subtrees[levels - 1]`,
the precomputed zero-subtree hash one level below the root, for every hash and
every positive depth. -/
theorem claim_C9 (H : Nat → Nat → Nat) (levels : Nat) (hpos : 1 ≤ levels) :
    getMerkleRoot H levels [] = zeroHashAt H (levels - 1) := by
  have h1 : getMerkleRoot H levels []
      = ((List.range levels).map (zeroHashAt H)).getD (levels - 1) 0 := rfl
  have h2 : levels - 1 < ((List.range levels).map (zeroHashAt H)).length := by
    simp; omega
  rw [h1, List.getD_eq_getElem _ _ h2]
  simp

/-- Witness for C9 at depth 3 with the concrete hash `pairHash`. -/
theorem claim_C9_witness :
    1 ≤ 3 ∧ getMerkleRoot pairHash 3 [] = zeroHashAt pairHash (3 - 1) :=
  ⟨by decide, claim_C9 pairHash 3 (by decide)⟩

/-- C7, as stated, fails on the code: with the three equal in-field leaves
`[1, 1, 1]` (concrete hash `pairHash`), `getMerkleRoot`'s `indexOf` resolves
every occurrence to index 0, so the returned root is the one-leaf root rather
than the claimed `H(H(H(L0,L1),H(L2,Z0)),H(Z1,Z1))`. -/
theorem claim_C7_counterexample :
    ¬ getMerkleRoot pairHash 3 [1, 1, 1]
        = pairHash (pairHash (pairHash 1 1) (pairHash 1 (zeroHashAt pairHash 0)))
            (pairHash (zeroHashAt pairHash 1) (zeroHashAt pairHash 1)) := by decide

/-- C7 (amended: pairwise-distinct leaves): for a depth-3 tree and pairwise
distinct in-field leaves `L0, L1, L2` inserted in that order, `getMerkleRoot`
returns `H(H(H(L0,L1),H(L2,Z0)),H(Z1,Z1))` with `Z0 = zeroHashAt 0` and
`Z1 = zeroHashAt 1 = H(Z0,Z0)`. -/
theorem claim_C7 (H : Nat → Nat → Nat) (L0 L1 L2 : Nat)
    (hf0 : L0 < P) (hf1 : L1 < P) (hf2 : L2 < P)
    (hne01 : L0 ≠ L1) (hne02 : L0 ≠ L2) (hne12 : L1 ≠ L2) :
    getMerkleRoot H 3 [L0, L1, L2]
      = H (H (H L0 L1) (H L2 (zeroHashAt H 0)))
          (H (zeroHashAt H 1) (zeroHashAt H 1)) := by
  have hnd : ([L0, L1, L2] : List Nat).Nodup := by
    simp [hne01, hne02, hne12]
  rw [getMerkleRoot_eq_nodeP H 3 [L0, L1, L2] hnd (by simp) (by simp)]
  simp [nodeP, zeroHashAt]

/-- Witness for C7 at the leaves `1, 2, 3` with the concrete hash
`pairHash`. -/
theorem claim_C7_witness :
    (1 : Nat) < P ∧ (2 : Nat) < P ∧ (3 : Nat) < P
      ∧ (1 : Nat) ≠ 2 ∧ (1 : Nat) ≠ 3 ∧ (2 : Nat) ≠ 3
      ∧ getMerkleRoot pairHash 3 [1, 2, 3]
          = pairHash (pairHash (pairHash 1 2) (pairHash 3 (zeroHashAt pairHash 0)))
              (pairHash (zeroHashAt pairHash 1) (zeroHashAt pairHash 1)) :=
  ⟨by decide, by decide, by decide, by decide, by decide, by decide,
    claim_C7 pairHash 1 2 3 (by decide) (by decide) (by decide) (by decide) (by decide)
      (by decide)⟩

/-- C4, as stated, fails on the code: on the duplicate leaf sequence `[1, 1]`
(depth 2, concrete hash `pairHash`, leaf index 1), the path produced by
`getMerklePath` recomputes the rebuilt root `H(H(1,1),Z1)`, while
`getMerkleRoot` — misled by `indexOf` — returns the one-leaf root, so
`verifyMerkleProof` answers `false`. -/
theorem claim_C4_counterexample :
    (getMerklePath pairHash 2 [1, 1] 1).map
        (fun pr => verifyMerkleProof pairHash 1 (getMerkleRoot pairHash 2 [1, 1]) pr.1 pr.2)
      = some (some false) := by decide

/-- C4 (amended: duplicate-free leaf sequences fitting the tree): for every
hash `H`, every duplicate-free sequence of in-field leaves with
`length ≤ 2 ^ levels`, and every index `i` of an inserted leaf,
`getMerklePath` succeeds and recomputing the root from leaf `i` along the
returned path — hashing `(current, sibling)` on side bit 0 and
`(sibling, current)` on side bit 1, as `MerkleTreeVerifier.verifyMerkleProof`
does — reconstructs exactly `getMerkleRoot`, so `verifyMerkleProof` returns
`true`. -/
theorem claim_C4 (H : Nat → Nat → Nat) (levels : Nat) (leaves : List Nat) (i : Nat)
    (hnd : leaves.Nodup) (hcap : leaves.length ≤ 2 ^ levels) (hi : i < leaves.length)
    (hfield : ∀ x ∈ leaves, x < P) :
    ∃ pr, getMerklePath H levels leaves i = some pr
      ∧ verifyMerkleProof H (leaves.getD i 0) (getMerkleRoot H levels leaves) pr.1 pr.2
          = some true := by
  have hne : leaves ≠ [] := by
    intro h; rw [h] at hi; simp at hi
  refine ⟨pathAux H levels 0 leaves i, by rw [getMerklePath, if_pos hi], ?_⟩
  unfold verifyMerkleProof
  rw [pathAux_chain H levels 0 leaves i hi]
  have hdiv : i / 2 ^ levels = 0 := Nat.div_eq_of_lt (by omega)
  have htop := levIter_getD H (nodeP H leaves leaves.length) (fun l j => rfl) levels 0 leaves
    (leaf_getD_nodeP H leaves) 0
  rw [hdiv, htop, Nat.zero_add, getMerkleRoot_eq_nodeP H levels leaves hnd hne hcap]
  simp

/-- Witness for C4 at depth 2, leaves `[1, 2, 3]`, leaf index 2, with the
concrete hash `pairHash`. -/
theorem claim_C4_witness :
    ([1, 2, 3] : List Nat).Nodup ∧ ([1, 2, 3] : List Nat).length ≤ 2 ^ 2
      ∧ 2 < ([1, 2, 3] : List Nat).length ∧ (∀ x ∈ ([1, 2, 3] : List Nat), x < P)
      ∧ ∃ pr, getMerklePath pairHash 2 [1, 2, 3] 2 = some pr
          ∧ verifyMerkleProof pairHash (([1, 2, 3] : List Nat).getD 2 0)
              (getMerkleRoot pairHash 2 [1, 2, 3]) pr.1 pr.2 = some true :=
  ⟨by decide, by decide, by decide, by decide,
    claim_C4 pairHash 2 [1, 2, 3] 2 (by decide) (by decide) (by decide) (by decide)⟩

/-! ## Session store (`src/store/db/SessionStore.ts`)

The SQLite table keyed by the primary key `id` is modelled as a list of
records; `read` is the `SELECT ... WHERE id = ?` lookup, `update` the
read-merge-write of `SessionStore.update`.  The `REAL` amount column and the
`number | string` expiry are modelled as `Nat`. -/

/-- A row of the `session` table (`SessionStore.ts`). -/
structure Session where
  id : String
  expiresAt : Nat
  txHash : String
  sender : String
  amount : Nat
  currency : String
  zkSecret : String
  secret : String
  nullifier : String
  commitment : String
deriving DecidableEq, Repr

/-- A `Partial<Session>` argument of `SessionStore.update`: any subset of the
fields.  A supplied `id` is modelled but ignored by `mergeSession`, because the
SQL `UPDATE` statement never sets the `id` column. -/
structure SessionPatch where
  id : Option String := none
  expiresAt : Option Nat := none
  txHash : Option String := none
  sender : Option String := none
  amount : Option Nat := none
  currency : Option String := none
  zkSecret : Option String := none
  secret : Option String := none
  nullifier : Option String := none
  commitment : Option String := none
deriving DecidableEq, Repr

/-- The spread `{...existing, ...session}` of `SessionStore.update` restricted
to the columns the SQL `UPDATE` writes (every column except `id`). -/
def mergeSession (s : Session) (p : SessionPatch) : Session where
  id := s.id
  expiresAt := p.expiresAt.getD s.expiresAt
  txHash := p.txHash.getD s.txHash
  sender := p.sender.getD s.sender
  amount := p.amount.getD s.amount
  currency := p.currency.getD s.currency
  zkSecret := p.zkSecret.getD s.zkSecret
  secret := p.secret.getD s.secret
  nullifier := p.nullifier.getD s.nullifier
  commitment := p.commitment.getD s.commitment

/-- `SessionStore.read`: first row whose `id` matches. -/
def readFn (st : List Session) (id : String) : Option Session :=
  st.find? (fun s => s.id == id)

/-- `SessionStore.update`: read the row; if absent return with no change,
otherwise merge the supplied fields over the existing row and write it back to
every row matching the id (at most one, `id` being the primary key). -/
def updateFn (st : List Session) (id : String) (p : SessionPatch) : List Session :=
  match readFn st id with
  | none => st
  | some ex => st.map (fun s => if s.id == id then mergeSession ex p else s)

/-- C10: `SessionStore.update` with an absent id returns normally and leaves
every stored record unchanged; with a present id it rewrites exactly the rows
carrying that id to the merge of the found row with the patch, keeps every
other session untouched, keeps the store's size, and the merge preserves the
id and every field the patch does not supply. -/
theorem claim_C10 (st : List Session) (id : String) (p : SessionPatch) :
    (readFn st id = none → updateFn st id p = st)
    ∧ (∀ s ∈ st, s.id ≠ id → s ∈ updateFn st id p)
    ∧ (updateFn st id p).length = st.length
    ∧ (∀ ex, readFn st id = some ex →
        (∀ s' ∈ updateFn st id p, s'.id = id → s' = mergeSession ex p)
        ∧ (∀ s' ∈ updateFn st id p, s'.id ≠ id → s' ∈ st))
    ∧ (∀ ex : Session,
        (mergeSession ex p).id = ex.id
        ∧ (p.expiresAt = none → (mergeSession ex p).expiresAt = ex.expiresAt)
        ∧ (p.txHash = none → (mergeSession ex p).txHash = ex.txHash)
        ∧ (p.sender = none → (mergeSession ex p).sender = ex.sender)
        ∧ (p.amount = none → (mergeSession ex p).amount = ex.amount)
        ∧ (p.currency = none → (mergeSession ex p).currency = ex.currency)
        ∧ (p.zkSecret = none → (mergeSession ex p).zkSecret = ex.zkSecret)
        ∧ (p.secret = none → (mergeSession ex p).secret = ex.secret)
        ∧ (p.nullifier = none → (mergeSession ex p).nullifier = ex.nullifier)
        ∧ (p.commitment = none → (mergeSession ex p).commitment = ex.commitment)) := by
  refine ⟨?_, ?_, ?_, ?_, ?_⟩
  · intro h; simp [updateFn, h]
  · intro s hs hne
    unfold updateFn
    cases h : readFn st id with
    | none => exact hs
    | some ex =>
      exact List.mem_map.2 ⟨s, hs, by simp [hne]⟩
  · unfold updateFn
    cases h : readFn st id with
    | none => rfl
    | some ex => exact List.length_map _ _
  · intro ex hex
    unfold updateFn
    rw [hex]
    constructor
    · intro s' hs' hid
      rcases List.mem_map.1 hs' with ⟨s, _, hmap⟩
      by_cases hcase : s.id = id
      · rw [← hmap]; simp [hcase]
      · rw [← hmap] at hid
        simp [hcase] at hid
    · intro s' hs' hne
      rcases List.mem_map.1 hs' with ⟨s, hsmem, hmap⟩
      by_cases hcase : s.id = id
      · exfalso
        rw [← hmap] at hne
        have hexid : ex.id = id := by
          have := List.find?_some hex
          simpa using this
        simp [hcase, mergeSession, hexid] at hne
      · rw [← hmap]
        simpa [hcase] using hsmem
  · intro ex
    refine ⟨rfl, ?_, ?_, ?_, ?_, ?_, ?_, ?_, ?_, ?_⟩ <;>
      (intro h; simp [mergeSession, h])

/-- A concrete session row used by the evaluation witnesses. -/
def demoSession : Session :=
  ⟨"s1", 10, "", "alice", 5, "0xc", "{}", "1", "2", "3"⟩

/-- A concrete patch supplying only `txHash`. -/
def demoPatch : SessionPatch := { txHash := some "0xt" }

/-- Witness for C10: updating an absent id leaves the concrete one-row store
unchanged. -/
theorem claim_C10_witness :
    updateFn [demoSession] "absent" demoPatch = [demoSession] :=
  (claim_C10 [demoSession] "absent" demoPatch).1 (by decide)

/-! ## Commitment derivations of the two circuits -/

/-- A concrete stand-in for the 4-ary Poseidon, built from `pairHash`. -/
def pairHash4 (a b c d : Nat) : Nat := pairHash (pairHash (pairHash a b) c) d

/-- The deposit circuit `Mixer()` of part_002 (`hasher.inputs[0] <== secret;
hasher.inputs[1] <== nullifier; ...`): the commitment leaf it outputs. -/
def depositCommitment (H4 : Nat → Nat → Nat → Nat → Nat)
    (secret nullifier currency amount : Nat) : Nat :=
  H4 secret nullifier currency amount

/-- The withdrawal circuit `Mixer(levels)` of `src/zk-snark/mixer.circom`
(`poseidon1.inputs[0] <== nullifier; poseidon1.inputs[1] <== secret; ...`):
the commitment it recomputes and checks for tree membership. -/
def withdrawCommitment (H4 : Nat → Nat → Nat → Nat → Nat)
    (secret nullifier currency amount : Nat) : Nat :=
  H4 nullifier secret currency amount

/-- The withdrawal circuit's nullifier-hash constraint
(`nullifierHash === Poseidon(nullifier, 0)`, `mixer.circom` lines 31-35). -/
def withdrawNullifierConstraint (H2 : Nat → Nat → Nat)
    (nullifier nullifierHash : Nat) : Prop :=
  nullifierHash = H2 nullifier 0

/-- C5 evaluated at the failing input `(secret, nullifier, currency, amount) =
(1, 2, 3, 4)` with the concrete injective-mod-P hash `pairHash4`: the
withdrawal circuit derives the claimed `Hash(nullifier, secret, currency,
amount)`, but the deposit circuit (which produces the actual leaf) hashes the
arguments in the order `(secret, nullifier, currency, amount)` and yields a
different value. -/
theorem claim_C5 :
    withdrawCommitment pairHash4 1 2 3 4 = pairHash4 2 1 3 4
    ∧ ¬ depositCommitment pairHash4 1 2 3 4 = pairHash4 2 1 3 4 :=
  ⟨rfl, by decide⟩

/-! ## Positional digits

Shared machinery for the external byte/string codecs the controller composes:
base-58 (`bs58`), byte values (base 256) and decimal numerals (base 10).  The
base is written `b + 2` so the division visibly shrinks; the recursion runs on
explicit fuel so every definition evaluates by kernel reduction. -/

/-- Most-significant-first digits of `n` in base `b + 2`, with fuel. -/
def natDigitsF : Nat → Nat → Nat → List Nat
  | 0, _, _ => []
  | fuel + 1, b, n =>
    if n = 0 then [] else natDigitsF fuel b (n / (b + 2)) ++ [n % (b + 2)]

/-- Most-significant-first digits of `n` in base `b + 2`; `0` has no digits.
`n` itself is always enough fuel. -/
def natDigits (b n : Nat) : List Nat := natDigitsF n b n

theorem natDigitsF_congr (b : Nat) :
    ∀ (f1 f2 n : Nat), n ≤ f1 → n ≤ f2 → natDigitsF f1 b n = natDigitsF f2 b n := by
  intro f1
  induction f1 with
  | zero =>
    intro f2 n h1 _
    have hn : n = 0 := by omega
    subst hn
    cases f2 <;> rfl
  | succ f1 ih =>
    intro f2 n h1 h2
    by_cases hn : n = 0
    · subst hn
      cases f2 <;> simp [natDigitsF]
    · have hnpos : 0 < n := by omega
      match f2, (by omega : 1 ≤ f2) with
      | g + 1, _ =>
        have hdiv : n / (b + 2) < n := Nat.div_lt_self hnpos (by omega)
        simp only [natDigitsF, if_neg hn]
        rw [ih g (n / (b + 2)) (by omega) (by omega)]

/-- The defining equation of `natDigits`, free of fuel. -/
theorem natDigits_eq (b n : Nat) :
    natDigits b n = if n = 0 then [] else natDigits b (n / (b + 2)) ++ [n % (b + 2)] := by
  by_cases hn : n = 0
  · subst hn; rfl
  · have hnpos : 0 < n := by omega
    have hdiv : n / (b + 2) < n := Nat.div_lt_self hnpos (by omega)
    rw [if_neg hn]
    unfold natDigits
    match n, hnpos with
    | n + 1, _ =>
      simp only [natDigitsF, if_neg hn]
      rw [natDigitsF_congr b n ((n + 1) / (b + 2)) ((n + 1) / (b + 2)) (by omega) le_rfl]

/-- Value of a most-significant-first digit list in the given base. -/
def fromDigits (base : Nat) (ds : List Nat) : Nat :=
  ds.foldl (fun acc d => acc * base + d) 0

theorem fromDigits_append_one (base : Nat) (ds : List Nat) (d : Nat) :
    fromDigits base (ds ++ [d]) = fromDigits base ds * base + d := by
  unfold fromDigits
  rw [List.foldl_append]
  rfl

theorem fromDigits_natDigits (b : Nat) : ∀ n, fromDigits (b + 2) (natDigits b n) = n := by
  intro n
  induction n using Nat.strong_induction_on with
  | _ n ih =>
    by_cases hn : n = 0
    · subst hn; rfl
    · rw [natDigits_eq, if_neg hn, fromDigits_append_one,
        ih (n / (b + 2)) (Nat.div_lt_self (by omega) (by omega)), Nat.mul_comm]
      have := Nat.div_add_mod n (b + 2)
      omega

theorem natDigits_lt (b : Nat) : ∀ n, ∀ d ∈ natDigits b n, d < b + 2 := by
  intro n
  induction n using Nat.strong_induction_on with
  | _ n ih =>
    by_cases hn : n = 0
    · subst hn; intro d hd; simp [natDigits, natDigitsF] at hd
    · intro d hd
      rw [natDigits_eq, if_neg hn] at hd
      rcases List.mem_append.1 hd with h | h
      · exact ih (n / (b + 2)) (Nat.div_lt_self (by omega) (by omega)) d h
      · simp at h
        subst h
        exact Nat.mod_lt _ (by omega)

theorem natDigits_ne_nil (b n : Nat) (hn : 0 < n) : natDigits b n ≠ [] := by
  rw [natDigits_eq, if_neg (by omega)]
  simp

theorem natDigits_head_pos (b : Nat) : ∀ n, 0 < n → 0 < (natDigits b n).headD 0 := by
  intro n
  induction n using Nat.strong_induction_on with
  | _ n ih =>
    intro hn
    rw [natDigits_eq, if_neg (by omega)]
    rcases Nat.eq_zero_or_pos (n / (b + 2)) with hq | hq
    · have hlt : n < b + 2 := by
        by_contra hge
        have := Nat.div_pos (show b + 2 ≤ n by omega) (show 0 < b + 2 by omega)
        omega
      rw [hq, show natDigits b 0 = [] from rfl, List.nil_append, Nat.mod_eq_of_lt hlt]
      simpa using hn
    · have hne := natDigits_ne_nil b _ hq
      have hh := ih (n / (b + 2)) (Nat.div_lt_self (by omega) (by omega)) hq
      cases hds : natDigits b (n / (b + 2)) with
      | nil => exact absurd hds hne
      | cons a t => rw [hds] at hh; simpa using hh

theorem foldl_digits_pos (base : Nat) (hb : 0 < base) :
    ∀ (ds : List Nat) (acc : Nat), 0 < acc →
      0 < ds.foldl (fun a d => a * base + d) acc := by
  intro ds
  induction ds with
  | nil => intro acc h; simpa using h
  | cons d rest ih =>
    intro acc h
    have hle : acc ≤ acc * base := Nat.le_mul_of_pos_right acc hb
    rw [List.foldl_cons]
    exact ih _ (by omega)

theorem fromDigits_pos (base : Nat) (hb : 0 < base) (x : Nat) (xs : List Nat) (hx : 0 < x) :
    0 < fromDigits base (x :: xs) := by
  unfold fromDigits
  rw [List.foldl_cons]
  exact foldl_digits_pos base hb xs _ (by omega)

/-- Digits-of-value inverse: a digit list that is empty or has a nonzero head
and in-range digits is recovered from its value. -/
theorem natDigits_fromDigits (b : Nat) :
    ∀ ds : List Nat, (∀ d ∈ ds, d < b + 2) → (ds = [] ∨ 0 < ds.headD 0) →
      natDigits b (fromDigits (b + 2) ds) = ds := by
  intro ds
  induction ds using List.reverseRecOn with
  | nil => intro _ _; rfl
  | append_singleton xs r ih =>
    intro hlt hhead
    have hr : r < b + 2 := hlt r (by simp)
    rw [fromDigits_append_one]
    match xs with
    | [] =>
      simp only [fromDigits, List.foldl_nil, Nat.zero_mul, Nat.zero_add]
      have hrpos : 0 < r := by
        rcases hhead with h | h
        · simp at h
        · simpa using h
      rw [natDigits_eq, if_neg (by omega), Nat.div_eq_of_lt hr, Nat.mod_eq_of_lt hr,
        show natDigits b 0 = [] from rfl, List.nil_append]
    | x :: xt =>
      have hhx : 0 < x := by
        rcases hhead with h | h
        · simp at h
        · simpa using h
      have hV : 0 < fromDigits (b + 2) (x :: xt) :=
        fromDigits_pos (b + 2) (by omega) x xt hhx
      have hval : 0 < fromDigits (b + 2) (x :: xt) * (b + 2) + r := by
        have := Nat.le_mul_of_pos_right (fromDigits (b + 2) (x :: xt)) (show 0 < b + 2 by omega)
        omega
      have hdiv : (fromDigits (b + 2) (x :: xt) * (b + 2) + r) / (b + 2)
          = fromDigits (b + 2) (x :: xt) := by
        rw [Nat.mul_comm, Nat.mul_add_div (by omega), Nat.div_eq_of_lt hr, Nat.add_zero]
      have hmod : (fromDigits (b + 2) (x :: xt) * (b + 2) + r) % (b + 2) = r := by
        rw [Nat.mul_add_mod', Nat.mod_eq_of_lt hr]
      rw [natDigits_eq, if_neg (by omega), hdiv, hmod,
        ih (fun d hd => hlt d (by simp at hd ⊢; tauto)) (Or.inr (by simpa using hhx))]

/-! ## Base-58 (the `bs58` package used for Note encoding)

`bs58.encode` interprets the byte string as a big-endian number, emits its
base-58 digits through the Bitcoin alphabet, and prepends one `'1'` per
leading zero byte; `bs58.decode` inverts this.  External library, modelled
from its documented algorithm. -/

/-- The Bitcoin base-58 alphabet. -/
def b58Alphabet : List Char :=
  "123456789ABCDEFGHJKLMNPQRSTUVWXYZabcdefghijkmnopqrstuvwxyz".toList

/-- Digit value to character. -/
def b58Char (d : Nat) : Char := b58Alphabet.getD d ' '

/-- Character to digit value (58 when absent). -/
def b58Val (c : Char) : Nat := b58Alphabet.indexOf c

theorem b58Alphabet_length : b58Alphabet.length = 58 := rfl

theorem b58Alphabet_nodup : b58Alphabet.Nodup := by decide

theorem b58Char_getElem (d : Nat) (hd : d < 58) :
    b58Char d = b58Alphabet.get ⟨d, by rw [b58Alphabet_length]; exact hd⟩ := by
  unfold b58Char
  exact List.getD_eq_getElem _ _ (by rw [b58Alphabet_length]; exact hd)

theorem b58Char_mem (d : Nat) (hd : d < 58) : b58Char d ∈ b58Alphabet := by
  rw [b58Char_getElem d hd]
  exact List.getElem_mem _

theorem b58Val_b58Char (d : Nat) (hd : d < 58) : b58Val (b58Char d) = d := by
  rw [b58Char_getElem d hd]
  exact List.indexOf_getElem b58Alphabet_nodup d _

theorem b58Char_ne_one (d : Nat) (h0 : 0 < d) (hd : d < 58) : b58Char d ≠ '1' := by
  rw [b58Char_getElem d hd]
  intro h
  have h1 : ('1' : Char) = b58Alphabet.get ⟨0, by rw [b58Alphabet_length]; omega⟩ := rfl
  rw [h1] at h
  have := (List.Nodup.getElem_inj_iff b58Alphabet_nodup).1 h
  omega

/-- `bs58.encode` over byte values. -/
def base58encode (bs : List Nat) : List Char :=
  List.replicate (bs.takeWhile (· == 0)).length '1'
    ++ (natDigits 56 (fromDigits 256 bs)).map b58Char

/-- `bs58.decode` over byte values; fails on a character outside the
alphabet. -/
def base58decode (cs : List Char) : Option (List Nat) :=
  if (cs.dropWhile (· == '1')).all (fun c => b58Alphabet.contains c) then
    some (List.replicate (cs.takeWhile (· == '1')).length 0
      ++ natDigits 254 (fromDigits 58 ((cs.dropWhile (· == '1')).map b58Val)))
  else none

theorem base58encode_cons_zero (bs : List Nat) :
    base58encode (0 :: bs) = '1' :: base58encode bs := by
  unfold base58encode
  rw [List.takeWhile_cons_of_pos (by simp)]
  have hv : fromDigits 256 (0 :: bs) = fromDigits 256 bs := by
    unfold fromDigits
    rw [List.foldl_cons]
  rw [hv]
  simp [List.replicate_succ]

theorem base58decode_cons_one (cs : List Char) :
    base58decode ('1' :: cs) = (base58decode cs).map (fun l => 0 :: l) := by
  unfold base58decode
  rw [List.takeWhile_cons_of_pos (by simp), List.dropWhile_cons_of_pos (by simp)]
  by_cases h : (cs.dropWhile (· == '1')).all (fun c => b58Alphabet.contains c)
  · rw [if_pos h, if_pos h]
    simp [List.replicate_succ]
  · rw [if_neg h, if_neg h]
    rfl

/-- Round-trip of the bearer-note byte encoding: decoding recovers every byte
string exactly. -/
theorem base58_roundtrip : ∀ bs : List Nat, (∀ b ∈ bs, b < 256) →
    base58decode (base58encode bs) = some bs := by
  intro bs
  induction bs with
  | nil => intro _; rfl
  | cons b bt ih =>
    intro hlt
    by_cases hb : b = 0
    · subst hb
      rw [base58encode_cons_zero, base58decode_cons_one,
        ih (fun x hx => hlt x (by simp [hx]))]
      rfl
    · have hN : 0 < fromDigits 256 (b :: bt) :=
        fromDigits_pos 256 (by omega) b bt (by omega)
      have htw : (b :: bt).takeWhile (· == 0) = [] :=
        List.takeWhile_cons_of_neg (by simpa using hb)
      unfold base58encode
      rw [htw]
      simp only [List.length_nil, List.replicate, List.nil_append]
      cases hds : natDigits 56 (fromDigits 256 (b :: bt)) with
      | nil => exact absurd hds (natDigits_ne_nil 56 _ hN)
      | cons d0 dt =>
        have hd0pos : 0 < d0 := by
          have := natDigits_head_pos 56 _ hN
          rw [hds] at this
          simpa using this
        have hd0lt : d0 < 58 := by
          have := natDigits_lt 56 (fromDigits 256 (b :: bt)) d0 (by rw [hds]; simp)
          omega
        have hdlt : ∀ d ∈ d0 :: dt, d < 58 := by
          intro d hd
          have := natDigits_lt 56 (fromDigits 256 (b :: bt)) d (by rw [hds]; simpa using hd)
          omega
        rw [List.map_cons]
        unfold base58decode
        rw [List.takeWhile_cons_of_neg (by simpa using b58Char_ne_one d0 hd0pos hd0lt),
          List.dropWhile_cons_of_neg (by simpa using b58Char_ne_one d0 hd0pos hd0lt)]
        have hall : (b58Char d0 :: dt.map b58Char).all (fun c => b58Alphabet.contains c)
            = true := by
          rw [List.all_eq_true]
          intro c hc
          rcases List.mem_cons.1 hc with hc0 | hcm
          · subst hc0
            exact List.elem_iff.2 (b58Char_mem d0 hd0lt)
          · rcases List.mem_map.1 hcm with ⟨d, hdm, rfl⟩
            exact List.elem_iff.2 (b58Char_mem d (hdlt d (by simp [hdm])))
        rw [if_pos hall]
        have hmapval : (b58Char d0 :: dt.map b58Char).map b58Val = d0 :: dt := by
          rw [← List.map_cons, List.map_map]
          have : ∀ d ∈ d0 :: dt, (b58Val ∘ b58Char) d = d := by
            intro d hd
            exact b58Val_b58Char d (hdlt d hd)
          calc (d0 :: dt).map (b58Val ∘ b58Char) = (d0 :: dt).map id :=
                List.map_congr_left this
          _ = d0 :: dt := List.map_id _
        rw [hmapval]
        have hfrom : fromDigits 58 (d0 :: dt) = fromDigits 256 (b :: bt) := by
          have := fromDigits_natDigits 56 (fromDigits 256 (b :: bt))
          rw [hds] at this
          exact this
        rw [hfrom]
        have hback : natDigits 254 (fromDigits 256 (b :: bt)) = b :: bt := by
          have := natDigits_fromDigits 254 (b :: bt)
            (fun d hd => by have := hlt d hd; omega) (Or.inr (by simpa using Nat.pos_of_ne_zero hb))
          exact this
        rw [hback]
        rfl

/-! ## JSON (`JSON.stringify` / `JSON.parse` as used for bearer Notes)

JS values are modelled by a mutual inductive (`Json` with explicit array and
object spines, so that every function below is structural and evaluates by
kernel reduction).  `stringify` is modelled without escape sequences, and the
round-trip theorems restrict string atoms to characters that JS would not
escape (printable ASCII other than the quote and the backslash).  External
library functions, modelled from their documented behaviour. -/

/-- The opening curly bracket character. -/
def braceOpen : Char := '\x7b'

/-- The closing curly bracket character. -/
def braceClose : Char := '\x7d'

mutual
inductive Json where
  | null : Json
  | bool : Bool → Json
  | num : Int → Json
  | str : String → Json
  | arr : JArr → Json
  | obj : JObj → Json
deriving DecidableEq, Repr
inductive JArr where
  | nil : JArr
  | cons : Json → JArr → JArr
deriving DecidableEq, Repr
inductive JObj where
  | nil : JObj
  | cons : String → Json → JObj → JObj
deriving DecidableEq, Repr
end

/-- Decimal numeral of a natural number (`String(n)` in JS). -/
def natChars : Nat → List Char := fun n =>
  if n = 0 then ['0'] else (natDigits 8 n).map (fun d => Char.ofNat (48 + d))

/-- Decimal numeral of an integer. -/
def intChars (i : Int) : List Char :=
  if i < 0 then '-' :: natChars i.natAbs else natChars i.toNat

mutual
/-- `JSON.stringify` (no spacing, escape-free strings). -/
def jsonChars : Json → List Char
  | .null => ['n', 'u', 'l', 'l']
  | .str s => '"' :: s.data ++ ['"']
  | .bool true => ['t', 'r', 'u', 'e']
  | .arr l => '[' :: arrChars l ++ [']']
  | .bool false => ['f', 'a', 'l', 's', 'e']
  | .obj l => braceOpen :: objChars l ++ [braceClose]
  | .num i => intChars i
/-- Comma-separated stringification of array elements. -/
def arrChars : JArr → List Char
  | .nil => []
  | .cons v .nil => jsonChars v
  | .cons v (.cons w rest) => jsonChars v ++ ',' :: arrChars (.cons w rest)
/-- Comma-separated stringification of object members. -/
def objChars : JObj → List Char
  | .nil => []
  | .cons k v .nil => '"' :: k.data ++ '"' :: ':' :: jsonChars v
  | .cons k v (.cons k2 w rest) =>
    ('"' :: k.data ++ '"' :: ':' :: jsonChars v) ++ ',' :: objChars (.cons k2 w rest)
end

mutual
/-- Parser budget: one unit per structural layer. -/
def jsonSize : Json → Nat
  | .null => 1
  | .bool _ => 1
  | .num _ => 1
  | .str _ => 1
  | .arr l => 1 + arrSize l
  | .obj l => 1 + objSize l
def arrSize : JArr → Nat
  | .nil => 0
  | .cons v rest => 1 + jsonSize v + arrSize rest
def objSize : JObj → Nat
  | .nil => 0
  | .cons _ v rest => 1 + jsonSize v + objSize rest
end

/-- Characters JS never escapes inside a string literal: printable ASCII other
than the quote and the backslash. -/
def charOkB (c : Char) : Bool :=
  31 < c.toNat && c.toNat < 128 && c != '"' && c != '\\'

/-- A string JS stringifies without escapes. -/
def strOkB (s : String) : Bool := s.data.all charOkB

mutual
/-- Values in the escape-free fragment the round-trip theorem covers. -/
def jsonOkB : Json → Bool
  | .null => true
  | .bool _ => true
  | .num _ => true
  | .str s => strOkB s
  | .arr l => arrOkB l
  | .obj l => objOkB l
def arrOkB : JArr → Bool
  | .nil => true
  | .cons v rest => jsonOkB v && arrOkB rest
def objOkB : JObj → Bool
  | .nil => true
  | .cons k v rest => strOkB k && jsonOkB v && objOkB rest
end

/-- The quote-scanning predicate of the string parser. -/
def notQuote (c : Char) : Bool := c != '"'

/-- `JSON.parse` on a numeral (integer fragment): optional minus sign then a
nonempty digit run, consumed greedily. -/
def parseNum : List Char → Option (Json × List Char)
  | [] => none
  | c :: rest =>
    if c = '-' then
      if (rest.takeWhile Char.isDigit).isEmpty then none
      else some (.num (-(fromDigits 10 ((rest.takeWhile Char.isDigit).map
          (fun ch => ch.toNat - 48)) : Int)), rest.dropWhile Char.isDigit)
    else
      if ((c :: rest).takeWhile Char.isDigit).isEmpty then none
      else some (.num (Int.ofNat (fromDigits 10 (((c :: rest).takeWhile Char.isDigit).map
          (fun ch => ch.toNat - 48)))), (c :: rest).dropWhile Char.isDigit)

mutual
/-- `JSON.parse` (strict, no whitespace), with fuel: one value, returning the
unread remainder. -/
def parseVal : Nat → List Char → Option (Json × List Char)
  | 0, _ => none
  | fuel + 1, cs =>
    match cs with
    | [] => none
    | c :: rest =>
      if c = 'n' then
        match rest with
        | 'u' :: 'l' :: 'l' :: rs => some (.null, rs)
        | _ => none
      else if c = 't' then
        match rest with
        | 'r' :: 'u' :: 'e' :: rs => some (.bool true, rs)
        | _ => none
      else if c = 'f' then
        match rest with
        | 'a' :: 'l' :: 's' :: 'e' :: rs => some (.bool false, rs)
        | _ => none
      else if c = '"' then
        match rest.dropWhile notQuote with
        | _ :: rs => some (.str (String.mk (rest.takeWhile notQuote)), rs)
        | [] => none
      else if c = '[' then
        match rest with
        | [] => none
        | c2 :: rs =>
          if c2 = ']' then some (.arr .nil, rs)
          else
            match parseElems fuel rest with
            | some (l, rs2) => some (.arr l, rs2)
            | none => none
      else if c = braceOpen then
        match rest with
        | [] => none
        | c2 :: rs =>
          if c2 = braceClose then some (.obj .nil, rs)
          else
            match parseMembers fuel rest with
            | some (l, rs2) => some (.obj l, rs2)
            | none => none
      else parseNum (c :: rest)
/-- One or more comma-separated array elements, consuming the closing
bracket. -/
def parseElems : Nat → List Char → Option (JArr × List Char)
  | 0, _ => none
  | fuel + 1, cs =>
    match parseVal fuel cs with
    | none => none
    | some (v, rs) =>
      match rs with
      | [] => none
      | c2 :: rs2 =>
        if c2 = ',' then
          match parseElems fuel rs2 with
          | none => none
          | some (l, rs3) => some (.cons v l, rs3)
        else if c2 = ']' then some (.cons v .nil, rs2)
        else none
/-- One or more comma-separated object members, consuming the closing
bracket. -/
def parseMembers : Nat → List Char → Option (JObj × List Char)
  | 0, _ => none
  | fuel + 1, cs =>
    match cs with
    | '"' :: rest =>
      match rest.dropWhile notQuote with
      | _ :: ':' :: rs =>
        (match parseVal fuel rs with
         | none => none
         | some (v, rs1) =>
           match rs1 with
           | [] => none
           | c2 :: rs2 =>
             if c2 = ',' then
               match parseMembers fuel rs2 with
               | none => none
               | some (l, rs3) =>
                 some (.cons (String.mk (rest.takeWhile notQuote)) v l, rs3)
             else if c2 = braceClose then
               some (.cons (String.mk (rest.takeWhile notQuote)) v .nil, rs2)
             else none)
      | _ => none
    | _ => none
end

/-! ### Parser helper lemmas -/

/-- Delimiters that may legally follow a stringified value: end of input, a
comma, a closing square bracket, or a closing curly bracket. -/
def delimB : List Char → Bool
  | [] => true
  | c :: _ => c == ',' || c == ']' || c == braceClose

theorem charOkB_ne_quote {c : Char} (h : charOkB c = true) : notQuote c = true := by
  unfold charOkB at h
  simp only [Bool.and_eq_true] at h
  simpa [notQuote] using h.1.2

/-- Scanning a quote-free prefix up to a closing quote splits exactly at the
quote. -/
theorem span_string (rest : List Char) :
    ∀ l : List Char, (∀ c ∈ l, charOkB c = true) →
      (l ++ '"' :: rest).takeWhile notQuote = l
      ∧ (l ++ '"' :: rest).dropWhile notQuote = '"' :: rest := by
  intro l
  induction l with
  | nil =>
    intro _
    constructor
    · rw [List.nil_append, List.takeWhile_cons_of_neg (show ¬ notQuote '"' = true by decide)]
    · rw [List.nil_append, List.dropWhile_cons_of_neg (show ¬ notQuote '"' = true by decide)]
  | cons c ct ih =>
    intro h
    have hc : notQuote c = true := charOkB_ne_quote (h c (by simp))
    have iht := ih (fun x hx => h x (by simp [hx]))
    constructor
    · rw [List.cons_append, List.takeWhile_cons_of_pos hc, iht.1]
    · rw [List.cons_append, List.dropWhile_cons_of_pos hc, iht.2]

theorem delim_takeWhile_digit {rest : List Char} (h : delimB rest = true) :
    rest.takeWhile Char.isDigit = [] ∧ rest.dropWhile Char.isDigit = rest := by
  cases rest with
  | nil => exact ⟨rfl, rfl⟩
  | cons c t =>
    have hc : (c = ',' ∨ c = ']') ∨ c = braceClose := by
      simpa [delimB] using h
    have hnd : ¬ c.isDigit = true := by
      rcases hc with (rfl | rfl) | rfl <;> decide
    exact ⟨List.takeWhile_cons_of_neg hnd, List.dropWhile_cons_of_neg hnd⟩

/-- Scanning digits over a digit run followed by a non-digit splits exactly at
the boundary. -/
theorem span_digits (rest : List Char) (hrest : rest.takeWhile Char.isDigit = []) :
    ∀ l : List Char, (∀ c ∈ l, c.isDigit = true) →
      (l ++ rest).takeWhile Char.isDigit = l
      ∧ (l ++ rest).dropWhile Char.isDigit = rest := by
  have hdrop : rest.dropWhile Char.isDigit = rest := by
    cases rest with
    | nil => rfl
    | cons c t =>
      have : ¬ c.isDigit = true := by
        intro hcd
        rw [List.takeWhile_cons_of_pos hcd] at hrest
        exact List.cons_ne_nil _ _ hrest
      exact List.dropWhile_cons_of_neg this
  intro l
  induction l with
  | nil => exact fun _ => ⟨by simpa using hrest, by simpa using hdrop⟩
  | cons c ct ih =>
    intro h
    have hc : c.isDigit = true := h c (by simp)
    have iht := ih (fun x hx => h x (by simp [hx]))
    constructor
    · rw [List.cons_append, List.takeWhile_cons_of_pos hc, iht.1]
    · rw [List.cons_append, List.dropWhile_cons_of_pos hc, iht.2]

theorem digitChar_toNat (d : Nat) (hd : d < 10) : (Char.ofNat (48 + d)).toNat = 48 + d := by
  interval_cases d <;> decide

theorem digitChar_isDigit (d : Nat) (hd : d < 10) : (Char.ofNat (48 + d)).isDigit = true := by
  interval_cases d <;> decide

theorem natChars_all_digit (n : Nat) : ∀ c ∈ natChars n, c.isDigit = true := by
  intro c hc
  unfold natChars at hc
  by_cases hn : n = 0
  · rw [if_pos hn] at hc
    simp at hc
    subst hc
    decide
  · rw [if_neg hn] at hc
    rcases List.mem_map.1 hc with ⟨d, hdm, rfl⟩
    have := natDigits_lt 8 n d hdm
    exact digitChar_isDigit d (by omega)

theorem natChars_ne_nil (n : Nat) : natChars n ≠ [] := by
  unfold natChars
  by_cases hn : n = 0
  · rw [if_pos hn]; simp
  · rw [if_neg hn]
    have := natDigits_ne_nil 8 n (by omega)
    simpa using this

theorem natChars_value (n : Nat) :
    fromDigits 10 ((natChars n).map (fun c => c.toNat - 48)) = n := by
  unfold natChars
  by_cases hn : n = 0
  · rw [if_pos hn, hn]; rfl
  · rw [if_neg hn, List.map_map]
    have hcongr : (natDigits 8 n).map ((fun c => Char.toNat c - 48) ∘ (fun d => Char.ofNat (48 + d)))
        = (natDigits 8 n).map id := by
      refine List.map_congr_left ?_
      intro d hd
      have := natDigits_lt 8 n d hd
      simp [digitChar_toNat d (by omega)]
    rw [hcongr, List.map_id]
    exact fromDigits_natDigits 8 n

theorem isDigit_toNat {c : Char} (h : c.isDigit = true) : 48 ≤ c.toNat ∧ c.toNat < 58 := by
  unfold Char.isDigit at h
  simp only [Bool.and_eq_true, decide_eq_true_eq] at h
  rcases h with ⟨h1, h2⟩
  exact ⟨h1, by exact Nat.lt_succ_of_le h2⟩

theorem isDigit_ne {c : Char} (h : c.isDigit = true) :
    c ≠ 'n' ∧ c ≠ 't' ∧ c ≠ 'f' ∧ c ≠ '"' ∧ c ≠ '[' ∧ c ≠ braceOpen ∧ c ≠ '-'
      ∧ c ≠ ']' ∧ c ≠ braceClose ∧ c ≠ ',' := by
  refine ⟨?_, ?_, ?_, ?_, ?_, ?_, ?_, ?_, ?_, ?_⟩ <;>
    (intro hc; rw [hc] at h; exact absurd h (by decide))

/-- Every stringified value is nonempty and starts with a character that is
not a closing bracket, a closing brace, or a comma. -/
theorem jsonChars_head (v : Json) :
    ∃ c t, jsonChars v = c :: t ∧ c ≠ ']' ∧ c ≠ braceClose ∧ c ≠ ',' := by
  match v with
  | .null => exact ⟨'n', _, rfl, by decide, by decide, by decide⟩
  | .bool true => exact ⟨'t', _, rfl, by decide, by decide, by decide⟩
  | .bool false => exact ⟨'f', _, rfl, by decide, by decide, by decide⟩
  | .str s => exact ⟨'"', _, rfl, by decide, by decide, by decide⟩
  | .arr l => exact ⟨'[', _, rfl, by decide, by decide, by decide⟩
  | .obj l => exact ⟨braceOpen, _, rfl, by decide, by decide, by decide⟩
  | .num i =>
    show ∃ c t, intChars i = c :: t ∧ _
    unfold intChars
    by_cases hi : i < 0
    · rw [if_pos hi]
      exact ⟨'-', _, rfl, by decide, by decide, by decide⟩
    · rw [if_neg hi]
      cases hnc : natChars i.toNat with
      | nil => exact absurd hnc (natChars_ne_nil _)
      | cons c0 t0 =>
        have hd : c0.isDigit = true := natChars_all_digit _ c0 (by rw [hnc]; simp)
        have hne := isDigit_ne hd
        exact ⟨c0, t0, rfl, hne.2.2.2.2.2.2.2.1, hne.2.2.2.2.2.2.2.2.1, hne.2.2.2.2.2.2.2.2.2⟩

theorem jsonSize_pos (v : Json) : 1 ≤ jsonSize v := by
  cases v <;> simp [jsonSize]

theorem arrSize_pos (l : JArr) (h : l ≠ .nil) : 1 ≤ arrSize l := by
  cases l with
  | nil => exact absurd rfl h
  | cons v rest => simp [arrSize]; omega

theorem objSize_pos (l : JObj) (h : l ≠ .nil) : 1 ≤ objSize l := by
  cases l with
  | nil => exact absurd rfl h
  | cons k v rest => simp [objSize]; omega

/-- `parseNum` inverts integer stringification when followed by a
delimiter. -/
theorem parseNum_int (i : Int) (rest : List Char) (hdel : delimB rest = true) :
    parseNum (intChars i ++ rest) = some (.num i, rest) := by
  have hdig := delim_takeWhile_digit hdel
  by_cases hi : i < 0
  · have hpos : 0 < i.natAbs := by omega
    rw [intChars, if_pos hi]
    cases hnc : natChars i.natAbs with
    | nil => exact absurd hnc (natChars_ne_nil _)
    | cons c0 t0 =>
      have hspan := span_digits rest hdig.1 (natChars i.natAbs) (natChars_all_digit _)
      rw [hnc] at hspan
      rw [List.cons_append, parseNum, if_pos rfl, List.cons_append] at *
      rw [hspan.1, hspan.2]
      rw [if_neg (by simp)]
      have hval := natChars_value i.natAbs
      rw [hnc] at hval
      rw [hval]
      have : -((i.natAbs : Nat) : Int) = i := by omega
      rw [this]
  · rw [intChars, if_neg hi]
    cases hnc : natChars i.toNat with
    | nil => exact absurd hnc (natChars_ne_nil _)
    | cons c0 t0 =>
      have hd : c0.isDigit = true := natChars_all_digit _ c0 (by rw [hnc]; simp)
      have hne := isDigit_ne hd
      have hspan := span_digits rest hdig.1 (natChars i.toNat) (natChars_all_digit _)
      rw [hnc] at hspan
      rw [List.cons_append, parseNum, if_neg hne.2.2.2.2.2.2.1, ← List.cons_append,
        hspan.1, hspan.2]
      rw [if_neg (by simp)]
      have hval := natChars_value i.toNat
      rw [hnc] at hval
      rw [hval]
      have : (Int.ofNat i.toNat) = i := by
        rw [Int.ofNat_eq_coe]
        omega
      rw [this]

/-- Heads of integer numerals: a minus sign or a digit, never a keyword or
bracket opener. -/
theorem intChars_head (i : Int) :
    ∃ c t, intChars i = c :: t ∧ c ≠ 'n' ∧ c ≠ 't' ∧ c ≠ 'f' ∧ c ≠ '"'
      ∧ c ≠ '[' ∧ c ≠ braceOpen := by
  unfold intChars
  by_cases hi : i < 0
  · rw [if_pos hi]
    exact ⟨'-', _, rfl, by decide, by decide, by decide, by decide, by decide, by decide⟩
  · rw [if_neg hi]
    cases hnc : natChars i.toNat with
    | nil => exact absurd hnc (natChars_ne_nil _)
    | cons c0 t0 =>
      have hne := isDigit_ne (natChars_all_digit _ c0 (by rw [hnc]; simp))
      exact ⟨c0, t0, rfl, hne.1, hne.2.1, hne.2.2.1, hne.2.2.2.1, hne.2.2.2.2.1,
        hne.2.2.2.2.2.1⟩

/-- `parseVal` on an integer numeral followed by a delimiter. -/
theorem parseVal_num (fuel : Nat) (i : Int) (rest : List Char)
    (hdel : delimB rest = true) :
    parseVal (fuel + 1) (intChars i ++ rest) = some (.num i, rest) := by
  obtain ⟨c, t, hct, h1, h2, h3, h4, h5, h6⟩ := intChars_head i
  have hpn := parseNum_int i rest hdel
  rw [hct, List.cons_append] at hpn
  rw [hct, List.cons_append]
  simp only [parseVal]
  rw [if_neg h1, if_neg h2, if_neg h3, if_neg h4, if_neg h5, if_neg h6]
  exact hpn

/-- `parseVal` on an escape-free string literal. -/
theorem parseVal_str (fuel : Nat) (s : String) (rest : List Char)
    (hok : strOkB s = true) :
    parseVal (fuel + 1) ('"' :: (s.data ++ '"' :: rest)) = some (.str s, rest) := by
  have hokS : ∀ c ∈ s.data, charOkB c = true := by
    simpa [strOkB, List.all_eq_true] using hok
  have hspan := span_string rest s.data hokS
  simp only [parseVal]
  rw [hspan.2, hspan.1]
  rfl

/-- `parseVal` on a nonempty array input defers to `parseElems`. -/
theorem parseVal_arr_cons (fuel : Nat) (c0 : Char) (X rs : List Char) (l : JArr)
    (hne : c0 ≠ ']') (hel : parseElems fuel (c0 :: X) = some (l, rs)) :
    parseVal (fuel + 1) ('[' :: c0 :: X) = some (.arr l, rs) := by
  show (if c0 = ']' then some (Json.arr .nil, X)
        else match parseElems fuel (c0 :: X) with
          | some (l2, rs2) => some (Json.arr l2, rs2)
          | none => none) = some (Json.arr l, rs)
  rw [if_neg hne, hel]

/-- `parseVal` on a nonempty object input defers to `parseMembers`. -/
theorem parseVal_obj_cons (fuel : Nat) (c0 : Char) (X rs : List Char) (l : JObj)
    (hne : c0 ≠ braceClose) (hml : parseMembers fuel (c0 :: X) = some (l, rs)) :
    parseVal (fuel + 1) (braceOpen :: c0 :: X) = some (.obj l, rs) := by
  show (if c0 = braceClose then some (Json.obj .nil, X)
        else match parseMembers fuel (c0 :: X) with
          | some (l2, rs2) => some (Json.obj l2, rs2)
          | none => none) = some (Json.obj l, rs)
  rw [if_neg hne, hml]

/-- `parseElems` step: last element, closing bracket consumed. -/
theorem parseElems_close (fuel : Nat) (cs rs2 : List Char) (v : Json)
    (hv : parseVal fuel cs = some (v, ']' :: rs2)) :
    parseElems (fuel + 1) cs = some (.cons v .nil, rs2) := by
  simp only [parseElems]
  rw [hv]
  rfl

/-- `parseElems` step: element followed by a comma and further elements. -/
theorem parseElems_comma (fuel : Nat) (cs rs2 rs3 : List Char) (v : Json) (l : JArr)
    (hv : parseVal fuel cs = some (v, ',' :: rs2))
    (hrec : parseElems fuel rs2 = some (l, rs3)) :
    parseElems (fuel + 1) cs = some (.cons v l, rs3) := by
  simp only [parseElems]
  rw [hv]
  show (match parseElems fuel rs2 with
        | none => none
        | some (l2, rs4) => some (JArr.cons v l2, rs4)) = some (JArr.cons v l, rs3)
  rw [hrec]

/-- `parseMembers` step: last member, closing brace consumed. -/
theorem parseMembers_close (fuel : Nat) (k : String) (hk : strOkB k = true)
    (Y rs2 : List Char) (v : Json)
    (hv : parseVal fuel Y = some (v, braceClose :: rs2)) :
    parseMembers (fuel + 1) ('"' :: (k.data ++ '"' :: ':' :: Y))
      = some (.cons k v .nil, rs2) := by
  have hokS : ∀ c ∈ k.data, charOkB c = true := by
    simpa [strOkB, List.all_eq_true] using hk
  have hspan := span_string (':' :: Y) k.data hokS
  simp only [parseMembers]
  rw [hspan.2, hspan.1]
  show (match parseVal fuel Y with
        | none => none
        | some (v2, rs1) =>
          match rs1 with
          | [] => none
          | c2 :: rsB =>
            if c2 = ',' then
              match parseMembers fuel rsB with
              | none => none
              | some (l2, rs4) => some (JObj.cons (String.mk k.data) v2 l2, rs4)
            else if c2 = braceClose then
              some (JObj.cons (String.mk k.data) v2 JObj.nil, rsB)
            else none)
      = some (JObj.cons k v JObj.nil, rs2)
  rw [hv]
  rfl

/-- `parseMembers` step: member followed by a comma and further members. -/
theorem parseMembers_comma (fuel : Nat) (k : String) (hk : strOkB k = true)
    (Y rs2 rs3 : List Char) (v : Json) (l : JObj)
    (hv : parseVal fuel Y = some (v, ',' :: rs2))
    (hrec : parseMembers fuel rs2 = some (l, rs3)) :
    parseMembers (fuel + 1) ('"' :: (k.data ++ '"' :: ':' :: Y))
      = some (.cons k v l, rs3) := by
  have hokS : ∀ c ∈ k.data, charOkB c = true := by
    simpa [strOkB, List.all_eq_true] using hk
  have hspan := span_string (':' :: Y) k.data hokS
  simp only [parseMembers]
  rw [hspan.2, hspan.1]
  show (match parseVal fuel Y with
        | none => none
        | some (v2, rs1) =>
          match rs1 with
          | [] => none
          | c2 :: rsB =>
            if c2 = ',' then
              match parseMembers fuel rsB with
              | none => none
              | some (l2, rs4) => some (JObj.cons (String.mk k.data) v2 l2, rs4)
            else if c2 = braceClose then
              some (JObj.cons (String.mk k.data) v2 JObj.nil, rsB)
            else none)
      = some (JObj.cons k v l, rs3)
  rw [hv]
  show (match parseMembers fuel rs2 with
        | none => none
        | some (l2, rs4) => some (JObj.cons (String.mk k.data) v l2, rs4))
      = some (JObj.cons k v l, rs3)
  rw [hrec]

/-- `JSON.parse` inverts `JSON.stringify` on the escape-free fragment: with
enough fuel, parsing a stringified value followed by a legal delimiter
returns the value and the delimiter, and likewise for nonempty element and
member lists. -/
theorem parse_roundtrip : ∀ fuel : Nat,
    (∀ v rest, jsonOkB v = true → delimB rest = true → jsonSize v ≤ fuel →
      parseVal fuel (jsonChars v ++ rest) = some (v, rest))
    ∧ (∀ l rest, arrOkB l = true → l ≠ .nil → arrSize l ≤ fuel →
      parseElems fuel (arrChars l ++ ']' :: rest) = some (l, rest))
    ∧ (∀ l rest, objOkB l = true → l ≠ .nil → objSize l ≤ fuel →
      parseMembers fuel (objChars l ++ braceClose :: rest) = some (l, rest)) := by
  intro fuel
  induction fuel with
  | zero =>
    refine ⟨?_, ?_, ?_⟩
    · intro v rest _ _ hsz
      have := jsonSize_pos v
      omega
    · intro l rest _ hne hsz
      have := arrSize_pos l hne
      omega
    · intro l rest _ hne hsz
      have := objSize_pos l hne
      omega
  | succ fuel ih =>
    obtain ⟨ihV, ihE, ihM⟩ := ih
    refine ⟨?_, ?_, ?_⟩
    · intro v rest hok hdel hsz
      cases v with
      | null => rfl
      | bool b => cases b <;> rfl
      | num i =>
        show parseVal (fuel + 1) (intChars i ++ rest) = some (.num i, rest)
        exact parseVal_num fuel i rest hdel
      | str s =>
        show parseVal (fuel + 1) (('"' :: s.data ++ ['"']) ++ rest) = some (.str s, rest)
        have hinput : ('"' :: s.data ++ ['"']) ++ rest = '"' :: (s.data ++ '"' :: rest) := by
          simp
        rw [hinput]
        exact parseVal_str fuel s rest hok
      | arr l =>
        cases l with
        | nil => rfl
        | cons v1 l1 =>
          obtain ⟨c0, t0, hc0, hne1, _, _⟩ := jsonChars_head v1
          have harr : ∃ t, arrChars (.cons v1 l1) = c0 :: t := by
            cases l1 with
            | nil =>
              exact ⟨t0, by rw [show arrChars (.cons v1 .nil) = jsonChars v1 from rfl, hc0]⟩
            | cons w l2 =>
              refine ⟨t0 ++ ',' :: arrChars (.cons w l2), ?_⟩
              show jsonChars v1 ++ ',' :: arrChars (.cons w l2) = _
              rw [hc0, List.cons_append]
          obtain ⟨t, ht⟩ := harr
          have hsz' : arrSize (.cons v1 l1) ≤ fuel := by
            have e1 : jsonSize (.arr (.cons v1 l1)) = 1 + arrSize (.cons v1 l1) := rfl
            omega
          have hel := ihE (.cons v1 l1) rest hok (by intro h; cases h) hsz'
          rw [ht, List.cons_append] at hel
          have hinput : jsonChars (.arr (.cons v1 l1)) ++ rest
              = '[' :: c0 :: (t ++ ']' :: rest) := by
            show ('[' :: arrChars (.cons v1 l1) ++ [']']) ++ rest = _
            rw [ht]
            simp
          rw [hinput]
          exact parseVal_arr_cons fuel c0 _ rest _ hne1 hel
      | obj l =>
        cases l with
        | nil => rfl
        | cons k v1 l1 =>
          have hobj : ∃ T, objChars (.cons k v1 l1) = '"' :: T := by
            cases l1 with
            | nil => exact ⟨_, rfl⟩
            | cons k2 w l2 =>
              exact ⟨(k.data ++ '"' :: ':' :: jsonChars v1)
                ++ ',' :: objChars (.cons k2 w l2), rfl⟩
          obtain ⟨T, hT⟩ := hobj
          have hsz' : objSize (.cons k v1 l1) ≤ fuel := by
            have e1 : jsonSize (.obj (.cons k v1 l1)) = 1 + objSize (.cons k v1 l1) := rfl
            omega
          have hml := ihM (.cons k v1 l1) rest hok (by intro h; cases h) hsz'
          rw [hT, List.cons_append] at hml
          have hinput : jsonChars (.obj (.cons k v1 l1)) ++ rest
              = braceOpen :: '"' :: (T ++ braceClose :: rest) := by
            show (braceOpen :: objChars (.cons k v1 l1) ++ [braceClose]) ++ rest = _
            rw [hT]
            simp
          rw [hinput]
          exact parseVal_obj_cons fuel '"' _ rest _ (by decide) hml
    · intro l rest hok hne hsz
      cases l with
      | nil => exact absurd rfl hne
      | cons v l1 =>
        have hok2 : jsonOkB v = true ∧ arrOkB l1 = true := by
          simpa only [arrOkB, Bool.and_eq_true] using hok
        have esz : arrSize (.cons v l1) = 1 + jsonSize v + arrSize l1 := rfl
        cases l1 with
        | nil =>
          have hv := ihV v (']' :: rest) hok2.1 (by rfl) (by omega)
          have hv' : parseVal fuel (arrChars (.cons v .nil) ++ ']' :: rest)
              = some (v, ']' :: rest) := hv
          exact parseElems_close fuel _ rest v hv'
        | cons w l2 =>
          have hassoc : arrChars (.cons v (.cons w l2)) ++ ']' :: rest
              = jsonChars v ++ ',' :: (arrChars (.cons w l2) ++ ']' :: rest) := by
            show (jsonChars v ++ ',' :: arrChars (.cons w l2)) ++ ']' :: rest = _
            simp
          rw [hassoc]
          have hv := ihV v (',' :: (arrChars (.cons w l2) ++ ']' :: rest)) hok2.1
            (by rfl) (by omega)
          have hsz2 : arrSize (.cons w l2) ≤ fuel := by
            have e2 : arrSize (.cons w l2) = 1 + jsonSize w + arrSize l2 := rfl
            omega
          have hrec := ihE (.cons w l2) rest hok2.2 (by intro h; cases h) hsz2
          exact parseElems_comma fuel _ _ rest v _ hv hrec
    · intro l rest hok hne hsz
      cases l with
      | nil => exact absurd rfl hne
      | cons k v l1 =>
        have hok3 : strOkB k = true ∧ jsonOkB v = true ∧ objOkB l1 = true := by
          simpa only [objOkB, Bool.and_eq_true, and_assoc] using hok
        have esz : objSize (.cons k v l1) = 1 + jsonSize v + objSize l1 := rfl
        cases l1 with
        | nil =>
          have hinput : objChars (.cons k v .nil) ++ braceClose :: rest
              = '"' :: (k.data ++ '"' :: ':' :: (jsonChars v ++ braceClose :: rest)) := by
            show ('"' :: k.data ++ '"' :: ':' :: jsonChars v) ++ braceClose :: rest = _
            simp
          rw [hinput]
          have hv := ihV v (braceClose :: rest) hok3.2.1 (by rfl) (by omega)
          exact parseMembers_close fuel k hok3.1 _ rest v hv
        | cons k2 w l2 =>
          have hinput : objChars (.cons k v (.cons k2 w l2)) ++ braceClose :: rest
              = '"' :: (k.data ++ '"' :: ':'
                :: (jsonChars v ++ ',' :: (objChars (.cons k2 w l2) ++ braceClose :: rest))) := by
            show (('"' :: k.data ++ '"' :: ':' :: jsonChars v)
              ++ ',' :: objChars (.cons k2 w l2)) ++ braceClose :: rest = _
            simp
          rw [hinput]
          have hv := ihV v (',' :: (objChars (.cons k2 w l2) ++ braceClose :: rest))
            hok3.2.1 (by rfl) (by omega)
          have hsz2 : objSize (.cons k2 w l2) ≤ fuel := by
            have e2 : objSize (.cons k2 w l2) = 1 + jsonSize w + objSize l2 := rfl
            omega
          have hrec := ihM (.cons k2 w l2) rest hok3.2.2 (by intro h; cases h) hsz2
          exact parseMembers_comma fuel k hok3.1 _ _ rest v _ hv hrec

mutual
/-- The parser budget of a value is covered by its stringified length. -/
theorem jsonSize_le (v : Json) : jsonSize v ≤ (jsonChars v).length := by
  cases v with
  | null => decide
  | bool b => cases b <;> decide
  | num i =>
    obtain ⟨c, t, hct, _, _, _, _, _, _⟩ := intChars_head i
    show jsonSize (.num i) ≤ (intChars i).length
    rw [hct]
    simp [jsonSize]
  | str s =>
    show jsonSize (.str s) ≤ ('"' :: s.data ++ ['"']).length
    simp [jsonSize]
  | arr l =>
    have hl := arrSize_le l
    show 1 + arrSize l ≤ ('[' :: arrChars l ++ [']']).length
    simp only [List.length_cons, List.length_append, List.length_singleton]
    omega
  | obj l =>
    have hl := objSize_le l
    show 1 + objSize l ≤ (braceOpen :: objChars l ++ [braceClose]).length
    simp only [List.length_cons, List.length_append, List.length_singleton]
    omega
/-- Element-list budget bound. -/
theorem arrSize_le (l : JArr) : arrSize l ≤ (arrChars l).length + 1 := by
  cases l with
  | nil => decide
  | cons v rest =>
    cases rest with
    | nil =>
      have h1 := jsonSize_le v
      show 1 + jsonSize v + arrSize .nil ≤ (jsonChars v).length + 1
      simp only [arrSize]
      omega
    | cons w r2 =>
      have h1 := jsonSize_le v
      have h2 := arrSize_le (.cons w r2)
      show 1 + jsonSize v + arrSize (.cons w r2)
        ≤ (jsonChars v ++ ',' :: arrChars (.cons w r2)).length + 1
      simp only [List.length_append, List.length_cons]
      omega
/-- Member-list budget bound. -/
theorem objSize_le (l : JObj) : objSize l ≤ (objChars l).length + 1 := by
  cases l with
  | nil => decide
  | cons k v rest =>
    cases rest with
    | nil =>
      have h1 := jsonSize_le v
      show 1 + jsonSize v + objSize .nil ≤ ('"' :: k.data ++ '"' :: ':' :: jsonChars v).length + 1
      simp only [objSize, List.length_cons, List.length_append]
      omega
    | cons k2 w r2 =>
      have h1 := jsonSize_le v
      have h2 := objSize_le (.cons k2 w r2)
      show 1 + jsonSize v + objSize (.cons k2 w r2)
        ≤ (('"' :: k.data ++ '"' :: ':' :: jsonChars v)
            ++ ',' :: objChars (.cons k2 w r2)).length + 1
      simp only [List.length_append, List.length_cons]
      omega
end

mutual
/-- Stringified values in the escape-free fragment are byte strings: every
character fits in one byte. -/
theorem jsonChars_lt (v : Json) (hok : jsonOkB v = true) :
    ∀ c ∈ jsonChars v, c.toNat < 256 := by
  cases v with
  | null =>
    intro c hc
    simp [jsonChars] at hc
    rcases hc with rfl | rfl | rfl | rfl <;> decide
  | bool b =>
    cases b <;> (intro c hc; simp [jsonChars] at hc) <;>
      (rcases hc with rfl | rfl | rfl | rfl | rfl <;> decide)
  | num i =>
    intro c hc
    show c.toNat < 256
    have hc' : c ∈ intChars i := hc
    rw [intChars] at hc'
    by_cases hi : i < 0
    · rw [if_pos hi] at hc'
      rcases List.mem_cons.1 hc' with rfl | hmem
      · decide
      · have := isDigit_toNat (natChars_all_digit _ c hmem)
        omega
    · rw [if_neg hi] at hc'
      have := isDigit_toNat (natChars_all_digit _ c hc')
      omega
  | str s =>
    intro c hc
    have hok' : strOkB s = true := hok
    simp only [strOkB, List.all_eq_true] at hok'
    have hc' : c ∈ '"' :: s.data ++ ['"'] := hc
    simp only [List.cons_append, List.mem_cons, List.mem_append,
      List.mem_nil_iff, or_false] at hc'
    rcases hc' with rfl | hmem | rfl
    · decide
    · have := hok' c hmem
      simp only [charOkB, Bool.and_eq_true, decide_eq_true_eq] at this
      omega
    · decide
  | arr l =>
    intro c hc
    have hok' : arrOkB l = true := hok
    have hc' : c ∈ '[' :: arrChars l ++ [']'] := hc
    simp only [List.cons_append, List.mem_cons, List.mem_append,
      List.mem_nil_iff, or_false] at hc'
    rcases hc' with rfl | hmem | rfl
    · decide
    · exact arrChars_lt l hok' c hmem
    · decide
  | obj l =>
    intro c hc
    have hok' : objOkB l = true := hok
    have hc' : c ∈ braceOpen :: objChars l ++ [braceClose] := hc
    simp only [List.cons_append, List.mem_cons, List.mem_append,
      List.mem_nil_iff, or_false] at hc'
    rcases hc' with rfl | hmem | rfl
    · decide
    · exact objChars_lt l hok' c hmem
    · decide
/-- Byte bound for stringified element lists. -/
theorem arrChars_lt (l : JArr) (hok : arrOkB l = true) :
    ∀ c ∈ arrChars l, c.toNat < 256 := by
  cases l with
  | nil =>
    intro c hc
    simp [arrChars] at hc
  | cons v rest =>
    have hok' : jsonOkB v = true ∧ arrOkB rest = true := by
      simpa only [arrOkB, Bool.and_eq_true] using hok
    cases rest with
    | nil =>
      intro c hc
      exact jsonChars_lt v hok'.1 c hc
    | cons w r2 =>
      intro c hc
      have hc' : c ∈ jsonChars v ++ ',' :: arrChars (.cons w r2) := hc
      simp only [List.mem_append, List.mem_cons] at hc'
      rcases hc' with hmem | rfl | hmem
      · exact jsonChars_lt v hok'.1 c hmem
      · decide
      · exact arrChars_lt (.cons w r2) hok'.2 c hmem
/-- Byte bound for stringified member lists. -/
theorem objChars_lt (l : JObj) (hok : objOkB l = true) :
    ∀ c ∈ objChars l, c.toNat < 256 := by
  cases l with
  | nil =>
    intro c hc
    simp [objChars] at hc
  | cons k v rest =>
    have hok' : strOkB k = true ∧ jsonOkB v = true ∧ objOkB rest = true := by
      simpa only [objOkB, Bool.and_eq_true, and_assoc] using hok
    have hkey : ∀ c ∈ k.data, c.toNat < 256 := by
      intro c hmem
      have := hok'.1
      simp only [strOkB, List.all_eq_true] at this
      have := this c hmem
      simp only [charOkB, Bool.and_eq_true, decide_eq_true_eq] at this
      omega
    cases rest with
    | nil =>
      intro c hc
      have hc' : c ∈ '"' :: k.data ++ '"' :: ':' :: jsonChars v := hc
      simp only [List.cons_append, List.mem_cons, List.mem_append,
        List.mem_nil_iff, or_false] at hc'
      rcases hc' with rfl | hmem | rfl | rfl | hmem
      · decide
      · exact hkey c hmem
      · decide
      · decide
      · exact jsonChars_lt v hok'.2.1 c hmem
    | cons k2 w r2 =>
      intro c hc
      have hc' : c ∈ ('"' :: k.data ++ '"' :: ':' :: jsonChars v)
          ++ ',' :: objChars (.cons k2 w r2) := hc
      simp only [List.cons_append, List.mem_cons, List.mem_append,
        List.mem_nil_iff, or_false] at hc'
      rcases hc' with rfl | (hmem | rfl | rfl | hmem) | rfl | hmem
      · decide
      · exact hkey c hmem
      · decide
      · decide
      · exact jsonChars_lt v hok'.2.1 c hmem
      · decide
      · exact objChars_lt (.cons k2 w r2) hok'.2.2 c hmem
end

/-- The bearer note record built in `validateETHDeposit`: the `NoteObj`
object literal (currency, type, secret, nullifier, commitment as strings,
zkData the parsed zkSecret JSON). -/
structure Note where
  currency : String
  type : String
  secret : String
  nullifier : String
  commitment : String
  zkData : Json
deriving DecidableEq, Repr

/-- The JSON value `JSON.stringify` serialises for a `NoteObj`, fields in
object-literal insertion order. -/
def noteJson (n : Note) : Json :=
  .obj (.cons "currency" (.str n.currency)
    (.cons "type" (.str n.type)
    (.cons "secret" (.str n.secret)
    (.cons "nullifier" (.str n.nullifier)
    (.cons "commitment" (.str n.commitment)
    (.cons "zkData" n.zkData .nil))))))

/-- `base58.encode(Buffer.from(JSON.stringify(noteObj)))` of
`validateETHDeposit`. -/
def encodeNote (n : Note) : List Char :=
  base58encode ((jsonChars (noteJson n)).map Char.toNat)

/-- JS property lookup on a parsed object. -/
def objGet : JObj → String → Option Json
  | .nil, _ => none
  | .cons k v rest, key => if k = key then some v else objGet rest key

/-- Field extraction from the parsed note JSON, as `withdrawSOL` reads
`noteObj.currency`, `noteObj.secret`, `noteObj.nullifier`, `noteObj.zkData`. -/
def decodeNoteBytes (bytes : List Nat) : Option Note :=
  match parseVal ((bytes.map Char.ofNat).length + 1) (bytes.map Char.ofNat) with
  | some (.obj m, []) =>
    match objGet m "currency", objGet m "type", objGet m "secret",
          objGet m "nullifier", objGet m "commitment", objGet m "zkData" with
    | some (.str c), some (.str t), some (.str sc), some (.str nu),
        some (.str cm), some z => some ⟨c, t, sc, nu, cm, z⟩
    | _, _, _, _, _, _ => none
  | _ => none

/-- `JSON.parse(Buffer.from(base58.decode(note)).toString('utf8'))` of
`withdrawSOL`, then field extraction. -/
def decodeNote (cs : List Char) : Option Note :=
  match base58decode cs with
  | none => none
  | some bytes => decodeNoteBytes bytes

/-- The escape-free fragment: all five string fields and the zkData JSON
stringify without escape sequences. -/
def noteOkB (n : Note) : Bool := jsonOkB (noteJson n)

/-- C8: The bearer Note encoding is lossless: base58-decode then JSON-parse
(as at the start of withdrawSOL) applied to JSON-stringify then base58-encode
(as in validateETHDeposit) returns the original record field-by-field, for
every note in the escape-free printable-ASCII fragment. -/
theorem claim_C8 (n : Note) (hok : noteOkB n = true) :
    decodeNote (encodeNote n) = some n := by
  have hjok : jsonOkB (noteJson n) = true := hok
  have hlt : ∀ b ∈ (jsonChars (noteJson n)).map Char.toNat, b < 256 := by
    intro b hb
    rcases List.mem_map.1 hb with ⟨c, hc, rfl⟩
    exact jsonChars_lt (noteJson n) hjok c hc
  have h58 := base58_roundtrip _ hlt
  have hmap : ((jsonChars (noteJson n)).map Char.toNat).map Char.ofNat
      = jsonChars (noteJson n) := by
    rw [List.map_map]
    have hcongr : (jsonChars (noteJson n)).map (Char.ofNat ∘ Char.toNat)
        = (jsonChars (noteJson n)).map id := by
      refine List.map_congr_left ?_
      intro c _
      simp [Char.ofNat_toNat]
    rw [hcongr, List.map_id]
  have hsz : jsonSize (noteJson n) ≤ (jsonChars (noteJson n)).length + 1 := by
    have := jsonSize_le (noteJson n)
    omega
  have hparse := (parse_roundtrip ((jsonChars (noteJson n)).length + 1)).1
    (noteJson n) [] hjok rfl hsz
  rw [List.append_nil] at hparse
  unfold decodeNote encodeNote
  rw [h58]
  show decodeNoteBytes ((jsonChars (noteJson n)).map Char.toNat) = some n
  unfold decodeNoteBytes
  rw [hmap, hparse]
  rfl

/-- C8 witness: a concrete note survives the encode/decode round trip. -/
theorem claim_C8_witness :
    noteOkB ⟨"0xE", "ETH2SOL", "12", "34", "56",
        .obj (.cons "proof" (.arr (.cons (.num 7) (.cons (.num (-8)) .nil)))
          (.cons "publicSignals" (.str "9") .nil))⟩ = true
    ∧ decodeNote (encodeNote ⟨"0xE", "ETH2SOL", "12", "34", "56",
        .obj (.cons "proof" (.arr (.cons (.num 7) (.cons (.num (-8)) .nil)))
          (.cons "publicSignals" (.str "9") .nil))⟩)
      = some ⟨"0xE", "ETH2SOL", "12", "34", "56",
        .obj (.cons "proof" (.arr (.cons (.num 7) (.cons (.num (-8)) .nil)))
          (.cons "publicSignals" (.str "9") .nil))⟩ :=
  ⟨by decide, claim_C8 _ (by decide)⟩

/-! ## validateETHDeposit (`controller/mixer/index.ts`)

The Ethereum RPC lookups (`getTransaction`, `getTransactionReceipt`,
`parseTransaction`) are external capabilities, modelled as an environment
record carrying the values the guards compare against. -/

/-- The chain data `validateETHDeposit` consults for one transaction hash. -/
structure EthEnv where
  now : Nat
  txExists : Bool
  receiptStatus : Nat
  txFrom : String
  txTo : String
  mixerAddress : String
  parsedName : String
  parsedCurrency : String
  parsedAmount : Nat
deriving DecidableEq, Repr

/-- The error cases of `validateETHDeposit`, one per thrown `Boom.internal`.
`badZkSecret` is the `SyntaxError` escaping from
`JSON.parse(session.zkSecret)`. -/
inductive VErr where
  | invalidSession
  | alreadyValidated
  | sessionExpired
  | invalidTxHash
  | txFailed
  | invalidSender
  | invalidRecipient
  | invalidFunction
  | invalidCurrency
  | invalidAmount
  | duplicateTx
  | badZkSecret
deriving DecidableEq, Repr

/-- `JSON.parse` on a stored string: parse one value consuming the whole
input; a JS `SyntaxError` is `none`. -/
def parseJsonStr (s : String) : Option Json :=
  match parseVal (s.data.length + 1) s.data with
  | some (v, []) => some v
  | _ => none

/-- JS `toLowerCase`, over the character list. -/
def lowerStr (s : String) : String := String.mk (s.data.map Char.toLower)

/-- The body of `validateETHDeposit` after the session lookup: the guard
chain in source order, then note creation and the zk-field clearing update. -/
def validateBody (env : EthEnv) (store : List Session) (sessionId txHash : String)
    (session : Session) : Except VErr (List Char × List Session) :=
  if session.txHash ≠ "" then .error .alreadyValidated
  else if session.expiresAt < env.now then .error .sessionExpired
  else if env.txExists = false then .error .invalidTxHash
  else if env.receiptStatus ≠ 1 then .error .txFailed
  else if lowerStr env.txFrom ≠ lowerStr session.sender then .error .invalidSender
  else if lowerStr env.txTo ≠ lowerStr env.mixerAddress then .error .invalidRecipient
  else if env.parsedName ≠ "deposit" then .error .invalidFunction
  else if lowerStr env.parsedCurrency ≠ lowerStr session.currency then .error .invalidCurrency
  else if env.parsedAmount ≠ session.amount then .error .invalidAmount
  else if (store.map (fun s => s.txHash)).contains txHash then .error .duplicateTx
  else match parseJsonStr session.zkSecret with
    | none => .error .badZkSecret
    | some zk =>
      .ok (encodeNote ⟨session.currency, "ETH2SOL", session.secret,
          session.nullifier, session.commitment, zk⟩,
        updateFn store sessionId
          { zkSecret := some "", secret := some "", nullifier := some "",
            commitment := some "" })

/-- `validateETHDeposit`: session lookup, guard chain, note issuance. -/
def validateETHDeposit (env : EthEnv) (store : List Session)
    (sessionId txHash : String) : Except VErr (List Char × List Session) :=
  match readFn store sessionId with
  | none => .error .invalidSession
  | some session => validateBody env store sessionId txHash session

/-- The row the store holds after an update, looked up by the same id. -/
theorem find_map_update (st : List Session) (id : String) (p : SessionPatch)
    (ex : Session)
    (hex : st.find? (fun s => s.id == id) = some ex) :
    (st.map (fun s => if s.id == id then mergeSession ex p else s)).find?
        (fun s => s.id == id) = some (mergeSession ex p) := by
  induction st with
  | nil => simp at hex
  | cons s t ih =>
    by_cases hcase : (s.id == id) = true
    · rw [@List.find?_cons_of_pos _ (fun (s : Session) => s.id == id) s t hcase] at hex
      have hs : s = ex := by injection hex
      subst hs
      simp only [List.map_cons, if_pos hcase]
      have hpred : ((mergeSession s p).id == id) = true := hcase
      exact @List.find?_cons_of_pos _ (fun (s : Session) => s.id == id) _ _ hpred
    · rw [@List.find?_cons_of_neg _ (fun (s : Session) => s.id == id) s t (by simpa using hcase)] at hex
      simp only [List.map_cons, if_neg hcase]
      rw [@List.find?_cons_of_neg _ (fun (s : Session) => s.id == id) s
        (t.map (fun (s : Session) => if s.id == id then mergeSession ex p else s))
        (by simpa using hcase)]
      exact ih hex

/-- `read` after `update` on a present id returns the merged row. -/
theorem readFn_updateFn (st : List Session) (id : String) (p : SessionPatch)
    (ex : Session) (hex : readFn st id = some ex) :
    readFn (updateFn st id p) id = some (mergeSession ex p) := by
  unfold updateFn
  rw [hex]
  exact find_map_update st id p ex hex

/-- A guard that fired cannot have produced a success. -/
theorem ite_error_ok {E A : Type} {c : Prop} [Decidable c] {e : E}
    {rest : Except E A} {x : A}
    (h : (if c then Except.error e else rest) = .ok x) : rest = .ok x := by
  by_cases hc : c
  · rw [if_pos hc] at h
    exact Except.noConfusion h
  · rwa [if_neg hc] at h

/-- A call that succeeded passed the guard. -/
theorem ite_error_ok_cond {E A : Type} {c : Prop} [Decidable c] {e : E}
    {rest : Except E A} {x : A}
    (h : (if c then Except.error e else rest) = .ok x) : ¬ c := by
  intro hc
  rw [if_pos hc] at h
  exact Except.noConfusion h

/-- On a session whose `txHash` is empty and whose `zkSecret` no longer
parses, `validateETHDeposit`'s body always errors, and never with
`alreadyValidated`. -/
theorem validateBody_never_already (env : EthEnv) (store : List Session)
    (sid tx : String) (s : Session) (htx : s.txHash = "")
    (hzk : parseJsonStr s.zkSecret = none) :
    ∃ e : VErr, validateBody env store sid tx s = .error e
      ∧ e ≠ .alreadyValidated := by
  unfold validateBody
  rw [if_neg (show ¬ s.txHash ≠ "" from not_ne_iff.mpr htx)]
  by_cases h2 : s.expiresAt < env.now
  · rw [if_pos h2]
    exact ⟨.sessionExpired, rfl, by decide⟩
  rw [if_neg h2]
  by_cases h3 : env.txExists = false
  · rw [if_pos h3]
    exact ⟨.invalidTxHash, rfl, by decide⟩
  rw [if_neg h3]
  by_cases h4 : env.receiptStatus ≠ 1
  · rw [if_pos h4]
    exact ⟨.txFailed, rfl, by decide⟩
  rw [if_neg h4]
  by_cases h5 : lowerStr env.txFrom ≠ lowerStr s.sender
  · rw [if_pos h5]
    exact ⟨.invalidSender, rfl, by decide⟩
  rw [if_neg h5]
  by_cases h6 : lowerStr env.txTo ≠ lowerStr env.mixerAddress
  · rw [if_pos h6]
    exact ⟨.invalidRecipient, rfl, by decide⟩
  rw [if_neg h6]
  by_cases h7 : env.parsedName ≠ "deposit"
  · rw [if_pos h7]
    exact ⟨.invalidFunction, rfl, by decide⟩
  rw [if_neg h7]
  by_cases h8 : lowerStr env.parsedCurrency ≠ lowerStr s.currency
  · rw [if_pos h8]
    exact ⟨.invalidCurrency, rfl, by decide⟩
  rw [if_neg h8]
  by_cases h9 : env.parsedAmount ≠ s.amount
  · rw [if_pos h9]
    exact ⟨.invalidAmount, rfl, by decide⟩
  rw [if_neg h9]
  by_cases h10 : (store.map (fun s => s.txHash)).contains tx = true
  · rw [if_pos h10]
    exact ⟨.duplicateTx, rfl, by decide⟩
  rw [if_neg h10]
  rw [hzk]
  exact ⟨.badZkSecret, rfl, by decide⟩

/-- C2: the AlreadyValidated guard of `validateETHDeposit` is dead code.  A
successful validation clears `zkSecret`, `secret`, `nullifier` and
`commitment`, but never writes `txHash`; a second validate call on the same
session therefore passes the `session.txHash !== ''` guard, and fails later
— at worst only when `JSON.parse` chokes on the cleared `zkSecret` — so it
always errors, but never with the already-validated error the specification
requires. -/
theorem claim_C2 (env : EthEnv) (store : List Session) (sid tx : String)
    (note : List Char) (store' : List Session)
    (h : validateETHDeposit env store sid tx = .ok (note, store'))
    (env2 : EthEnv) (tx2 : String) :
    ∃ e : VErr, validateETHDeposit env2 store' sid tx2 = .error e
      ∧ e ≠ .alreadyValidated := by
  unfold validateETHDeposit at h
  cases hread : readFn store sid with
  | none =>
    rw [hread] at h
    exact Except.noConfusion h
  | some s0 =>
    rw [hread] at h
    have hb : validateBody env store sid tx s0 = .ok (note, store') := h
    unfold validateBody at hb
    have htx0 : s0.txHash = "" := not_ne_iff.mp (ite_error_ok_cond hb)
    have hb1 := ite_error_ok hb
    have hb2 := ite_error_ok hb1
    have hb3 := ite_error_ok hb2
    have hb4 := ite_error_ok hb3
    have hb5 := ite_error_ok hb4
    have hb6 := ite_error_ok hb5
    have hb7 := ite_error_ok hb6
    have hb8 := ite_error_ok hb7
    have hb9 := ite_error_ok hb8
    have hb10 := ite_error_ok hb9
    cases hzk0 : parseJsonStr s0.zkSecret with
    | none =>
      rw [hzk0] at hb10
      exact Except.noConfusion hb10
    | some zk =>
      rw [hzk0] at hb10
      injection hb10 with hpair
      injection hpair with hnote hstore
      subst hstore
      have hread2 := readFn_updateFn store sid
        { zkSecret := some "", secret := some "", nullifier := some "",
          commitment := some "" } s0 hread
      have hconv : validateETHDeposit env2
          (updateFn store sid
            { zkSecret := some "", secret := some "", nullifier := some "",
              commitment := some "" }) sid tx2
          = validateBody env2
            (updateFn store sid
              { zkSecret := some "", secret := some "", nullifier := some "",
                commitment := some "" }) sid tx2
            (mergeSession s0
              { zkSecret := some "", secret := some "", nullifier := some "",
                commitment := some "" }) := by
        unfold validateETHDeposit
        rw [hread2]
      rw [hconv]
      apply validateBody_never_already
      · exact htx0
      · rfl

/-- C2 witness: a concrete successful validation followed by a second
validate call on the same session, erroring but not with AlreadyValidated. -/
theorem claim_C2_witness :
    ∃ e : VErr,
      validateETHDeposit ⟨0, true, 1, "alice", "0xm", "0xm", "deposit", "0xc", 5⟩
        (updateFn [demoSession] "s1"
          { zkSecret := some "", secret := some "", nullifier := some "",
            commitment := some "" }) "s1" "0xt2" = .error e
      ∧ e ≠ .alreadyValidated :=
  claim_C2 ⟨0, true, 1, "alice", "0xm", "0xm", "deposit", "0xc", 5⟩ [demoSession]
    "s1" "0xt"
    (encodeNote ⟨"0xc", "ETH2SOL", "1", "2", "3", .obj .nil⟩)
    (updateFn [demoSession] "s1"
      { zkSecret := some "", secret := some "", nullifier := some "",
        commitment := some "" })
    rfl
    ⟨0, true, 1, "alice", "0xm", "0xm", "deposit", "0xc", 5⟩ "0xt2"

/-! ## withdrawSOL over the local Solana ledger (`unnamed/part_004`,
`store/db/SolanaLedger.ts`)

The `mix` table is a list of rows; `read` is the `SELECT ... WHERE id = ?`,
`update` the dynamic-`SET` `UPDATE ... WHERE id = ?` without a prior read.
`ZkSnark.offchainVerify` is an external capability, carried as a boolean in
the environment.  The post-update payout (`sendSol`/`sendSPLToken`) is the
`.ok` payload: a thrown guard performs no payout. -/

/-- A row of the `mix` table: `id TEXT PRIMARY KEY, commitment INTEGER,
nullifierHash BOOLEAN`. -/
structure MixRow where
  id : String
  commitment : Nat
  nullifierHash : Bool
deriving DecidableEq, Repr

/-- `SolanaLedger.read`: the row whose primary key matches. -/
def ledgerRead (lg : List MixRow) (id : String) : Option MixRow :=
  lg.find? (fun r => r.id == id)

/-- `SolanaLedger.update`: if no column is supplied, return unchanged;
otherwise overwrite the supplied columns of every row matching the id. -/
def ledgerUpdate (lg : List MixRow) (id : String) (commitment : Option Nat)
    (nullifierHash : Option Bool) : List MixRow :=
  if commitment = none ∧ nullifierHash = none then lg
  else lg.map (fun r => if r.id == id then
      ⟨r.id, commitment.getD r.commitment, nullifierHash.getD r.nullifierHash⟩
    else r)

/-- The error cases of the part_004 `withdrawSOL`: decode failure
(`JSON.parse`/property access throwing), then the three guards in source
order. -/
inductive WErr where
  | noteDecodeFailed
  | depositNotFound
  | alreadyWithdrawn
  | invalidWithdrawProof
deriving DecidableEq, Repr

/-- `offchainVerify(noteObj.zkData)`, the external proof check. -/
structure SolEnv where
  isValid : Bool
deriving DecidableEq, Repr

/-- The payout the success path performs (`sendSol`/`sendSPLToken` to the
receiver, keyed by the ledger id). -/
structure SolPayout where
  receiver : String
  key : String
deriving DecidableEq, Repr

/-- `JSON.parse(Buffer.from(base58.decode(note)).toString('utf8'))` as a raw
JSON value. -/
def parseNoteJson (cs : List Char) : Option Json :=
  match base58decode cs with
  | none => none
  | some bytes =>
    match parseVal ((bytes.map Char.ofNat).length + 1) (bytes.map Char.ofNat) with
    | some (v, []) => some v
    | _ => none

/-- `noteObj.zkData.publicSignals[0].toString()`, the ledger key; `none` when
the property chain would throw. -/
def zkKey (noteJ : Json) : Option String :=
  match noteJ with
  | .obj m =>
    match objGet m "zkData" with
    | some (.obj zm) =>
      match objGet zm "publicSignals" with
      | some (.arr (.cons (.str s) _)) => some s
      | _ => none
    | _ => none
  | _ => none

/-- The part_004 `withdrawSOL` after the note decode: ledger lookup, the
three guards in source order, then the consuming update followed by the
payout. -/
def withdrawBody (env : SolEnv) (lg : List MixRow) (receiver : String) :
    Option String → Except WErr (List MixRow × SolPayout)
  | none => .error .noteDecodeFailed
  | some key =>
    match ledgerRead lg key with
    | none => .error .depositNotFound
    | some dep =>
      if dep.nullifierHash then .error .alreadyWithdrawn
      else if env.isValid = false then .error .invalidWithdrawProof
      else .ok (ledgerUpdate lg key none (some true), ⟨receiver, key⟩)

/-- The part_004 `withdrawSOL`. -/
def withdrawSOL_p4 (env : SolEnv) (lg : List MixRow) (note : List Char)
    (receiver : String) : Except WErr (List MixRow × SolPayout) :=
  match parseNoteJson note with
  | none => .error .noteDecodeFailed
  | some noteJ => withdrawBody env lg receiver (zkKey noteJ)

/-- `find?` over the row-overwriting map of `ledgerUpdate`. -/
theorem ledger_find_update (lg : List MixRow) (key : String) (cO : Option Nat)
    (nO : Option Bool) (r : MixRow)
    (h : lg.find? (fun x => x.id == key) = some r) :
    (lg.map (fun x => if x.id == key then
        MixRow.mk x.id (cO.getD x.commitment) (nO.getD x.nullifierHash) else x)).find?
      (fun x => x.id == key)
      = some (MixRow.mk r.id (cO.getD r.commitment) (nO.getD r.nullifierHash)) := by
  induction lg with
  | nil => simp at h
  | cons x t ih =>
    by_cases hcase : (x.id == key) = true
    · rw [@List.find?_cons_of_pos _ (fun (r : MixRow) => r.id == key) x t hcase] at h
      have hx : x = r := by injection h
      subst hx
      simp only [List.map_cons, if_pos hcase]
      exact @List.find?_cons_of_pos _ (fun (r : MixRow) => r.id == key) _ _ hcase
    · rw [@List.find?_cons_of_neg _ (fun (r : MixRow) => r.id == key) x t
        (by simpa using hcase)] at h
      simp only [List.map_cons, if_neg hcase]
      rw [@List.find?_cons_of_neg _ (fun (r : MixRow) => r.id == key) _ _
        (by simpa using hcase)]
      exact ih h

/-- C1: a note whose ledger row is already marked consumed is rejected by
`withdrawSOL` with the already-withdrawn error and no payout is issued; and
after a successful redemption — which sets the consumed flag before paying —
any second call resolving to the same ledger key is likewise rejected. -/
theorem claim_C1 (env : SolEnv) (lg : List MixRow) (note : List Char)
    (receiver : String) (noteJ : Json) (key : String)
    (hparse : parseNoteJson note = some noteJ)
    (hkey : zkKey noteJ = some key) :
    (∀ rid c, ledgerRead lg key = some (MixRow.mk rid c true) →
        withdrawSOL_p4 env lg note receiver = .error .alreadyWithdrawn)
    ∧ (∀ lg' pay, withdrawSOL_p4 env lg note receiver = .ok (lg', pay) →
        ∀ env2 receiver2 note2 noteJ2,
          parseNoteJson note2 = some noteJ2 → zkKey noteJ2 = some key →
          withdrawSOL_p4 env2 lg' note2 receiver2 = .error .alreadyWithdrawn) := by
  have hcall : ∀ env0 lg0 receiver0,
      withdrawSOL_p4 env0 lg0 note receiver0 = withdrawBody env0 lg0 receiver0 (some key) := by
    intro env0 lg0 receiver0
    unfold withdrawSOL_p4
    rw [hparse]
    show withdrawBody env0 lg0 receiver0 (zkKey noteJ) = _
    rw [hkey]
  constructor
  · intro rid c hread
    rw [hcall env lg receiver]
    simp only [withdrawBody]
    rw [hread]
    rfl
  · intro lg' pay hok env2 receiver2 note2 noteJ2 hparse2 hkey2
    rw [hcall env lg receiver] at hok
    simp only [withdrawBody] at hok
    cases hread : ledgerRead lg key with
    | none =>
      rw [hread] at hok
      exact Except.noConfusion hok
    | some dep =>
      rw [hread] at hok
      have hok2 : (if dep.nullifierHash = true then
            (Except.error WErr.alreadyWithdrawn : Except WErr (List MixRow × SolPayout))
          else if env.isValid = false then Except.error WErr.invalidWithdrawProof
          else Except.ok (ledgerUpdate lg key none (some true), ⟨receiver, key⟩))
          = Except.ok (lg', pay) := hok
      have hok3 := ite_error_ok hok2
      have hok4 := ite_error_ok hok3
      injection hok4 with hpair
      injection hpair with hlg hpay
      subst hlg
      have hcall2 : withdrawSOL_p4 env2 (ledgerUpdate lg key none (some true)) note2 receiver2
          = withdrawBody env2 (ledgerUpdate lg key none (some true)) receiver2 (some key) := by
        unfold withdrawSOL_p4
        rw [hparse2]
        show withdrawBody env2 _ receiver2 (zkKey noteJ2) = _
        rw [hkey2]
      rw [hcall2]
      have hread2 : ledgerRead (ledgerUpdate lg key none (some true)) key
          = some (MixRow.mk dep.id dep.commitment true) := by
        unfold ledgerUpdate
        rw [if_neg (by simp)]
        exact ledger_find_update lg key none (some true) dep hread
      simp only [withdrawBody]
      rw [hread2]
      rfl

/-- A minimal note JSON carrying only the ledger key. -/
def demoNoteJ : Json :=
  .obj (.cons "zkData"
    (.obj (.cons "publicSignals" (.arr (.cons (.str "k1") .nil)) .nil)) .nil)

/-- Its bearer encoding, as `validate` would emit it. -/
def demoNoteC1 : List Char := base58encode ((jsonChars demoNoteJ).map Char.toNat)

/-- C1 witness: a ledger whose row for the note's key is already consumed
rejects the concrete redeem call with the already-withdrawn error. -/
theorem claim_C1_witness :
    withdrawSOL_p4 ⟨true⟩ [MixRow.mk "k1" 7 true] demoNoteC1 "rcv"
      = .error .alreadyWithdrawn :=
  (claim_C1 ⟨true⟩ [MixRow.mk "k1" 7 true] demoNoteC1 "rcv" demoNoteJ "k1"
    (by rfl) (by rfl)).1 "k1" 7 (by rfl)

/-! ## keccak256 (`ethers.keccak256`), as called by `createZkProof`

`ZkSnark.createZkProof` line 41 derives the public nullifier hash as
`ethers.keccak256(ethers.solidityPacked(["uint256"], [input.nullifier]))`.
`ethers.keccak256` is Keccak-f[1600] with rate 136 and multi-rate padding;
lanes are 64-bit words, here naturals reduced mod `2 ^ 64`. -/

/-- 64-bit left rotation. -/
def rotl64 (x n : Nat) : Nat :=
  ((x <<< n) ||| (x >>> (64 - n))) % (2 ^ 64)

/-- The 24 round constants of Keccak-f[1600]. -/
def keccakRC : List Nat :=
  [0x0000000000000001, 0x0000000000008082, 0x800000000000808a, 0x8000000080008000,
   0x000000000000808b, 0x0000000080000001, 0x8000000080008081, 0x8000000000008009,
   0x000000000000008a, 0x0000000000000088, 0x0000000080008009, 0x000000008000000a,
   0x000000008000808b, 0x800000000000008b, 0x8000000000008089, 0x8000000000008003,
   0x8000000000008002, 0x8000000000000080, 0x000000000000800a, 0x800000008000000a,
   0x8000000080008081, 0x8000000000008080, 0x0000000080000001, 0x8000000080008008]

/-- The rotation offsets, flattened by lane index `x + 5 * y`. -/
def rhoOff : List Nat :=
  [0, 1, 62, 28, 27] ++ [36, 44, 6, 55, 20] ++ [3, 10, 43, 25, 39]
    ++ [41, 45, 15, 21, 8] ++ [18, 2, 61, 56, 14]

/-- Lane `(x, y)` of a 25-lane state. -/
def lane (st : List Nat) (x y : Nat) : Nat := st.getD (x + 5 * y) 0

/-- The θ step. -/
def theta (st : List Nat) : List Nat :=
  let C := (List.range 5).map (fun x =>
    lane st x 0 ^^^ lane st x 1 ^^^ lane st x 2 ^^^ lane st x 3 ^^^ lane st x 4)
  let D := (List.range 5).map (fun x =>
    C.getD ((x + 4) % 5) 0 ^^^ rotl64 (C.getD ((x + 1) % 5) 0) 1)
  (List.range 25).map (fun i => st.getD i 0 ^^^ D.getD (i % 5) 0)

/-- The ρ and π steps: `B[y, 2x+3y] = rot(A[x, y], r[x, y])`, written from
the target coordinates. -/
def rhoPiStep (st : List Nat) : List Nat :=
  (List.range 25).map (fun i =>
    let X := i % 5
    let Y := i / 5
    let x := (3 * (Y + 2 * X)) % 5
    let y := X
    rotl64 (lane st x y) (rhoOff.getD (x + 5 * y) 0))

/-- The χ step; 64-bit complement as xor with the all-ones word. -/
def chi (st : List Nat) : List Nat :=
  (List.range 25).map (fun i =>
    let x := i % 5
    let y := i / 5
    st.getD i 0 ^^^
      (((st.getD ((x + 1) % 5 + 5 * y) 0) ^^^ (2 ^ 64 - 1)) &&&
        st.getD ((x + 2) % 5 + 5 * y) 0))

/-- The ι step. -/
def iotaStep (st : List Nat) (rc : Nat) : List Nat :=
  match st with
  | a :: rest => (a ^^^ rc) :: rest
  | [] => []

/-- One round of Keccak-f[1600]. -/
def keccakRound (st : List Nat) (rc : Nat) : List Nat :=
  iotaStep (chi (rhoPiStep (theta st))) rc

/-- The full 24-round permutation. -/
def keccakF (st : List Nat) : List Nat := keccakRC.foldl keccakRound st

/-- Multi-rate padding `pad10*1` for rate 136 bytes. -/
def padKeccak (msg : List Nat) : List Nat :=
  let padlen := 136 - msg.length % 136
  if padlen = 1 then msg ++ [0x81]
  else msg ++ 0x01 :: List.replicate (padlen - 2) 0 ++ [0x80]

/-- A little-endian 8-byte group as one 64-bit lane. -/
def bytesToLane (bs : List Nat) : Nat :=
  bs.foldr (fun b acc => acc * 256 + b) 0

/-- Absorb one 136-byte block into the first 17 lanes, then permute. -/
def absorbBlock (st : List Nat) (block : List Nat) : List Nat :=
  keccakF ((List.range 25).map (fun i =>
    if i < 17 then st.getD i 0 ^^^ bytesToLane ((block.drop (8 * i)).take 8)
    else st.getD i 0))

/-- Keccak-256 of a byte string, as the big-endian 256-bit value the
`0x`-hex digest of `ethers.keccak256` denotes. -/
def keccak256 (msg : List Nat) : Nat :=
  let padded := padKeccak msg
  let st := (List.range (padded.length / 136)).foldl
    (fun st j => absorbBlock st ((padded.drop (136 * j)).take 136))
    (List.replicate 25 0)
  (List.range 32).foldl
    (fun acc i => acc * 256 + ((st.getD (i / 8) 0 >>> (8 * (i % 8))) % 256)) 0

/-- `ethers.solidityPacked(["uint256"], [n])`: 32 big-endian bytes. -/
def beBytes32 (n : Nat) : List Nat :=
  (List.range 32).map (fun i => (n >>> (8 * (31 - i))) % 256)

/-- The nullifier-hash derivation of `createZkProof` (`ZkSnark.ts` line 41). -/
def createZkProofNullifierHash (nullifier : Nat) : Nat :=
  keccak256 (beBytes32 nullifier)

set_option maxRecDepth 200000 in
/-- keccak256 of the empty byte string, checked against the standard test
vector, pinning down the embedding of the permutation and the padding. -/
theorem keccak256_nil :
    keccak256 []
      = 0xc5d2460186f7233c927e7db2dcc703c0e500b653ca82273b7bfad8045d85a470 := by
  decide

set_option maxRecDepth 200000 in
/-- C6: the nullifier hash `createZkProof` publishes is
`keccak256(solidityPacked(uint256 nullifier))`, not the
`Hash(nullifier, 0)` of the spec and of the withdrawal circuit's
`nullifierHash === Poseidon(nullifier, 0)` constraint.  At nullifier 1 the
published value is a fixed 256-bit digest that is not even a BN254 field
element, so no field-valued two-to-one hash — Poseidon in particular —
can reproduce it: the two derivations cannot agree. -/
theorem claim_C6 :
    createZkProofNullifierHash 1
      = 0xb10e2d527612073b26eecdfd717e6a320cf44b4afac2b0732d9fcbe2b7fa0cf6
    ∧ P ≤ createZkProofNullifierHash 1
    ∧ (∀ H2 : Nat → Nat → Nat, (∀ a b, H2 a b < P) →
        ¬ withdrawNullifierConstraint H2 1 (createZkProofNullifierHash 1)) := by
  have hval : createZkProofNullifierHash 1
      = 0xb10e2d527612073b26eecdfd717e6a320cf44b4afac2b0732d9fcbe2b7fa0cf6 := by
    decide
  have hge : P ≤ createZkProofNullifierHash 1 := by
    rw [hval]
    decide
  refine ⟨hval, hge, ?_⟩
  intro H2 hlt hcon
  have h1 := hlt 1 0
  unfold withdrawNullifierConstraint at hcon
  omega

end Mixer
